import Mathlib

/-!
Verification of the HTMLCraftPro editor against its specification.

The development shallowly embeds the parts of the code base that the
checked properties are about:

* `src/client/src/lib/utils.ts` (shipped here as `src/unnamed/part_005`):
  JavaScript `String.split`, `getFileExtension`, `getLanguageFromFileName`,
  and `debounce`;
* `src/client/src/store/editorStore.ts`: the tab state and its operations;
* `src/client/src/store/fileStore.ts`: the client file list and `renameFile`;
* `src/server/storage.ts` and `src/server/routes.ts`: the in-memory file
  map and the PUT/DELETE route handlers;
* the recursive file-tree builder (`buildFileTree` in `src/unnamed/part_008`).

JavaScript strings are embedded as `String`, arrays as `List`, JS `Map`s
and plain-object records as association lists, and `undefined`/`null` as
`Option`.  Generated uuids are passed as explicit parameters (the
uniqueness assumptions appear as hypotheses).  Time, for the debounce
model, is a discrete `Nat` clock.
-/

namespace HTMLCraft

/-! ## JavaScript string splitting (`fileName.split(c)`)

`jsSplit` is the semantics of JavaScript `String.prototype.split` with a
one-character separator: `"".split(c) = [""]`, separators delimit
(possibly empty) fields. -/

/-- JS `split` on a single-character separator, at the character-list level. -/
def jsSplit (sep : Char) : List Char → List (List Char)
  | [] => [[]]
  | c :: cs =>
    let rest := jsSplit sep cs
    if c = sep then [] :: rest
    else
      match rest with
      | r :: rs => (c :: r) :: rs
      | [] => [[c]]

/-- JS `s.split(sep)` producing strings. -/
def jsSplitStr (sep : Char) (s : String) : List String :=
  (jsSplit sep s.data).map String.mk

/-- JS `String.prototype.toLowerCase`, modelled characterwise. -/
def toLowerStr (s : String) : String :=
  String.mk (s.data.map Char.toLower)

/-! ## `getFileExtension` and `getLanguageFromFileName` (utils.ts lines 12-37) -/

/-- Embedding of `getFileExtension`: split on `'.'`; if there is more than
one part, the last part (JS `parts.pop() || ''`), else `''`. -/
def getFileExtension (fileName : String) : String :=
  let parts := jsSplitStr '.' fileName
  if 1 < parts.length then parts.getLastD "" else ""

/-- The `switch` block of `getLanguageFromFileName`, mapping a (lower-cased)
extension to a Monaco language id. -/
def langOfExt (ext : String) : String :=
  match ext with
  | "html" => "html"
  | "htm" => "html"
  | "css" => "css"
  | "js" => "javascript"
  | "ts" => "typescript"
  | "json" => "json"
  | "md" => "markdown"
  | _ => "plaintext"

/-- Embedding of `getLanguageFromFileName` (utils.ts lines 17-37). -/
def getLanguageFromFileName (fileName : String) : String :=
  langOfExt (toLowerStr (getFileExtension fileName))

/-! ## Editor store (`src/client/src/store/editorStore.ts`)

The store's `set`/`get` state is the pair of the open tab list and the
`activeTab` id (`null` is `Option.none`).  The uuid generated by a call is
an explicit argument.  `theme` and `cursorPosition` play no role in any
checked property and are omitted from the state record. -/

/-- An open editor tab (interface `EditorTab`). -/
structure EditorTab where
  id : String
  fileName : String
  content : String
  language : String
  isUnsaved : Bool
deriving DecidableEq, Repr

/-- The tab-related state of the editor store. -/
structure EditorState where
  tabs : List EditorTab
  activeTab : Option String
deriving DecidableEq, Repr

/-- `createNewTab` (editorStore.ts lines 42-60): append a fresh unsaved tab
and make it active.  `id` is the generated uuid. -/
def createNewTab (s : EditorState) (id fileName content : String) : EditorState :=
  { tabs := s.tabs ++ [⟨id, fileName, content, getLanguageFromFileName fileName, true⟩],
    activeTab := some id }

/-- `openFile` (editorStore.ts lines 62-86): if a tab with this file name is
already open, activate it; otherwise append a new saved tab and activate it. -/
def openFile (s : EditorState) (id fileName content : String) : EditorState :=
  match s.tabs.find? (fun t => t.fileName == fileName) with
  | some existingTab => { s with activeTab := some existingTab.id }
  | none =>
      { tabs := s.tabs ++ [⟨id, fileName, content, getLanguageFromFileName fileName, false⟩],
        activeTab := some id }

/-- `closeTab` (editorStore.ts lines 88-111): drop the tab with the given id;
if it was active, activate the tab now at index `min tabIndex (length - 1)`,
or `null` when no tab remains. -/
def closeTab (s : EditorState) (tabId : String) : EditorState :=
  match s.tabs.findIdx? (fun t => t.id == tabId) with
  | none => s
  | some tabIndex =>
    let newTabs := s.tabs.filter (fun t => t.id != tabId)
    let newActiveTab : Option String :=
      if s.activeTab = some tabId then
        if h2 : 0 < newTabs.length then
          some (newTabs.get ⟨min tabIndex (newTabs.length - 1),
            Nat.lt_of_le_of_lt (Nat.min_le_right _ _) (Nat.sub_lt h2 Nat.one_pos)⟩).id
        else none
      else s.activeTab
    { tabs := newTabs, activeTab := newActiveTab }

/-- `setActiveTab` (editorStore.ts lines 113-115): unconditional assignment. -/
def setActiveTab (s : EditorState) (tabId : String) : EditorState :=
  { s with activeTab := some tabId }

/-- `updateTabContent` (editorStore.ts lines 117-125). -/
def updateTabContent (s : EditorState) (tabId content : String) : EditorState :=
  { s with tabs := s.tabs.map (fun t =>
      if t.id == tabId then { t with content := content, isUnsaved := true } else t) }

/-- `saveActiveTab` (editorStore.ts lines 127-145), restricted to its effect
on the tab state (the `fileStore.saveFile` call mutates the file store, not
the tabs): mark the active tab saved when it exists. -/
def saveActiveTab (s : EditorState) : EditorState :=
  match s.activeTab with
  | none => s
  | some activeId =>
    match s.tabs.find? (fun t => t.id == activeId) with
    | none => s
    | some _ =>
      { s with tabs := s.tabs.map (fun t =>
          if t.id == activeId then { t with isUnsaved := false } else t) }

/-- `formatActiveTab` (editorStore.ts lines 147-166), parametric in the
`beautifyHtml` content transformation (which touches only the `content`
string): reformat the active tab when its language is html. -/
def formatActiveTab (beautify : String → String) (s : EditorState) : EditorState :=
  match s.activeTab with
  | none => s
  | some activeId =>
    match s.tabs.find? (fun t => t.id == activeId) with
    | none => s
    | some currentTab =>
      if currentTab.language = "html" then
        { s with tabs := s.tabs.map (fun t =>
            if t.id == activeId then
              { t with content := beautify currentTab.content, isUnsaved := true }
            else t) }
      else s

/-! ## Editor-store invariants -/

/-- The ids of the open tabs, in order. -/
def tabIds (s : EditorState) : List String :=
  s.tabs.map EditorTab.id

/-- All open tabs have pairwise-distinct ids. -/
def DistinctTabIds (s : EditorState) : Prop :=
  (tabIds s).Nodup

/-- The `activeTab` field names at most one open tab. -/
def atMostOneActive (s : EditorState) : Prop :=
  match s.activeTab with
  | none => True
  | some a => (tabIds s).count a ≤ 1

/-- The `activeTab` field is `null` or the id of some open tab. -/
def ActiveTabValid (s : EditorState) : Prop :=
  s.activeTab = none ∨ ∃ t ∈ s.tabs, s.activeTab = some t.id

end HTMLCraft

namespace HTMLCraft

/-! ## Helper lemmas about lists -/

theorem countP_le_one_of_nodup_map {α β : Type} [DecidableEq β] (f : α → β) (x : β)
    (l : List α) (h : (l.map f).Nodup) : l.countP (fun a => f a == x) ≤ 1 := by
  induction l with
  | nil => simp
  | cons a as ih =>
    simp only [List.map_cons, List.nodup_cons] at h
    rw [List.countP_cons]
    by_cases hx : f a = x
    · have hz : as.countP (fun a => f a == x) = 0 := by
        rw [List.countP_eq_zero]
        intro b hb
        simp only [beq_iff_eq]
        intro hbx
        apply h.1
        have hab : f a = f b := by rw [hx, hbx]
        rw [hab]
        exact List.mem_map_of_mem f hb
      simp [hz, hx]
    · simp [hx, ih h.2]

theorem filter_not_eq_eraseIdx {α : Type} (p : α → Bool) :
    ∀ (l : List α) (i : Nat), l.findIdx? p = some i → l.countP p ≤ 1 →
      l.filter (fun a => !p a) = l.eraseIdx i := by
  intro l
  induction l with
  | nil => intro i h; simp [List.findIdx?] at h
  | cons a as ih =>
    intro i h hcount
    rw [List.findIdx?_cons] at h
    rw [List.countP_cons] at hcount
    by_cases hpa : p a
    · rw [if_pos hpa] at h
      cases h
      rw [if_pos hpa] at hcount
      have hz : as.countP p = 0 := by omega
      rw [List.countP_eq_zero] at hz
      have hself : as.filter (fun a => !p a) = as := by
        rw [List.filter_eq_self]
        intro b hb
        simp [hz b hb]
      simp [List.filter_cons, hpa, hself, List.eraseIdx_cons_zero]
    · rw [if_neg hpa, List.findIdx?_succ] at h
      rw [if_neg hpa] at hcount
      match hi : as.findIdx? p with
      | none => rw [hi] at h; simp at h
      | some j =>
        rw [hi] at h
        simp only [Option.map_some'] at h
        cases h
        have hrec := ih j hi (by omega)
        simp [List.filter_cons, hpa, hrec, List.eraseIdx_cons_succ]

/-! ## Claim C1: distinct tab ids and at most one active tab -/

theorem tabIds_map_of_id_preserved {f : EditorTab → EditorTab}
    (hf : ∀ t, (f t).id = t.id) (l : List EditorTab) :
    (l.map f).map EditorTab.id = l.map EditorTab.id := by
  induction l with
  | nil => rfl
  | cons t ts ih => simp [hf t, ih]

theorem disjoint_singleton_of_not_mem {α : Type} {l : List α} {a : α}
    (h : a ∉ l) : l.Disjoint [a] := by
  intro x hx hm
  simp only [List.mem_singleton] at hm
  subst hm
  exact h hx

/-- Claim C1: in every editor-store state whose open tabs have
pairwise-distinct ids, the `activeTab` field names at most one tab, and the
pairwise-distinctness of tab ids is preserved by `createNewTab`, `openFile`,
`closeTab`, `setActiveTab`, `updateTabContent`, `saveActiveTab` and
`formatActiveTab`, assuming each generated uuid is fresh. -/
theorem editor_tab_invariants (s : EditorState) (hInv : DistinctTabIds s) :
    atMostOneActive s ∧
    (∀ id fn c, id ∉ tabIds s → DistinctTabIds (createNewTab s id fn c)) ∧
    (∀ id fn c, id ∉ tabIds s → DistinctTabIds (openFile s id fn c)) ∧
    (∀ tid, DistinctTabIds (closeTab s tid)) ∧
    (∀ tid, DistinctTabIds (setActiveTab s tid)) ∧
    (∀ tid c, DistinctTabIds (updateTabContent s tid c)) ∧
    DistinctTabIds (saveActiveTab s) ∧
    (∀ b, DistinctTabIds (formatActiveTab b s)) := by
  refine ⟨?_, ?_, ?_, ?_, ?_, ?_, ?_, ?_⟩
  · unfold atMostOneActive
    cases s.activeTab with
    | none => trivial
    | some a => exact List.nodup_iff_count_le_one.mp hInv a
  · intro id fn c hid
    simp only [DistinctTabIds, tabIds, createNewTab, List.map_append, List.map_cons,
      List.map_nil, List.nodup_append]
    exact ⟨hInv, List.nodup_singleton id, disjoint_singleton_of_not_mem hid⟩
  · intro id fn c hid
    cases hfind : s.tabs.find? (fun t => t.fileName == fn) with
    | some t =>
      simpa only [DistinctTabIds, tabIds, openFile, hfind] using hInv
    | none =>
      simp only [DistinctTabIds, tabIds, openFile, hfind, List.map_append, List.map_cons,
        List.map_nil, List.nodup_append]
      exact ⟨hInv, List.nodup_singleton id, disjoint_singleton_of_not_mem hid⟩
  · intro tid
    cases hfind : s.tabs.findIdx? (fun t => t.id == tid) with
    | none => simpa only [DistinctTabIds, tabIds, closeTab, hfind] using hInv
    | some i =>
      simp only [DistinctTabIds, tabIds, closeTab, hfind]
      exact ((List.filter_sublist s.tabs).map EditorTab.id).nodup hInv
  · intro tid
    exact hInv
  · intro tid c
    simp only [DistinctTabIds, tabIds, updateTabContent]
    rw [tabIds_map_of_id_preserved (fun t => by split <;> rfl)]
    exact hInv
  · cases hact : s.activeTab with
    | none => simpa only [DistinctTabIds, tabIds, saveActiveTab, hact] using hInv
    | some a =>
      cases hfind : s.tabs.find? (fun t => t.id == a) with
      | none => simpa only [DistinctTabIds, tabIds, saveActiveTab, hact, hfind] using hInv
      | some t =>
        simp only [DistinctTabIds, tabIds, saveActiveTab, hact, hfind]
        rw [tabIds_map_of_id_preserved (fun t => by split <;> rfl)]
        exact hInv
  · intro b
    cases hact : s.activeTab with
    | none => simpa only [DistinctTabIds, tabIds, formatActiveTab, hact] using hInv
    | some a =>
      cases hfind : s.tabs.find? (fun t => t.id == a) with
      | none => simpa only [DistinctTabIds, tabIds, formatActiveTab, hact, hfind] using hInv
      | some t =>
        by_cases hl : t.language = "html"
        · simp only [DistinctTabIds, tabIds, formatActiveTab, hact, hfind, hl, if_true]
          rw [tabIds_map_of_id_preserved (fun t => by split <;> rfl)]
          exact hInv
        · simpa only [DistinctTabIds, tabIds, formatActiveTab, hact, hfind, hl,
            if_false] using hInv

/-- Witness for C1 at a concrete state: closing a tab of a two-tab state
keeps the tab ids distinct. -/
theorem editor_tab_invariants_witness :
    DistinctTabIds (closeTab
      ⟨[⟨"id1", "a.html", "", "html", false⟩, ⟨"id2", "b.css", "", "css", true⟩],
        some "id1"⟩ "id1") :=
  (editor_tab_invariants _ (by unfold DistinctTabIds tabIds; decide)).2.2.2.1 "id1"

end HTMLCraft

namespace HTMLCraft

/-! ## Claim C3: functional behaviour of `openFile` -/

/-- Claim C3: when some open tab already has the given file name, `openFile`
leaves the tab list unchanged and activates the first such tab; otherwise it
appends exactly one new tab (given file name and content, language derived
from the extension, `isUnsaved = false`) and activates it. -/
theorem openFile_behaviour (s : EditorState) (id fileName content : String) :
    ((∃ t ∈ s.tabs, t.fileName = fileName) →
      (openFile s id fileName content).tabs = s.tabs ∧
      ∃ t0, s.tabs.find? (fun t => t.fileName == fileName) = some t0 ∧
        t0 ∈ s.tabs ∧ t0.fileName = fileName ∧
        (openFile s id fileName content).activeTab = some t0.id) ∧
    ((∀ t ∈ s.tabs, t.fileName ≠ fileName) →
      openFile s id fileName content =
        { tabs := s.tabs ++ [⟨id, fileName, content,
            getLanguageFromFileName fileName, false⟩],
          activeTab := some id }) := by
  constructor
  · intro hex
    have hsome : (s.tabs.find? (fun t => t.fileName == fileName)).isSome := by
      rw [List.find?_isSome]
      obtain ⟨t, ht, hname⟩ := hex
      exact ⟨t, ht, by simp [hname]⟩
    cases hfind : s.tabs.find? (fun t => t.fileName == fileName) with
    | none => rw [hfind] at hsome; simp at hsome
    | some t0 =>
      refine ⟨by simp only [openFile, hfind], t0, rfl, List.mem_of_find?_eq_some hfind,
        by simpa using List.find?_some hfind, by simp only [openFile, hfind]⟩
  · intro hnone
    have hfind : s.tabs.find? (fun t => t.fileName == fileName) = none := by
      rw [List.find?_eq_none]
      intro t ht
      simpa using hnone t ht
    simp only [openFile, hfind]

/-- Witness for C3: opening a file in the empty state appends one tab. -/
theorem openFile_behaviour_witness :
    openFile ⟨[], none⟩ "id1" "a.html" "hello" =
      ⟨[⟨"id1", "a.html", "hello", getLanguageFromFileName "a.html", false⟩],
        some "id1"⟩ :=
  (openFile_behaviour ⟨[], none⟩ "id1" "a.html" "hello").2 (by simp)

/-! ## Claim C4: functional behaviour of `closeTab` -/

/-- Claim C4: closing an id that no tab has leaves the state unchanged;
closing the tab at index `i` removes exactly that tab, and the active tab is
unchanged unless the closed tab was active, in which case it becomes the tab
now at index `min i (newLength - 1)`, or `null` when no tab remains. -/
theorem closeTab_behaviour (s : EditorState) (hInv : DistinctTabIds s) (tabId : String) :
    (tabId ∉ tabIds s → closeTab s tabId = s) ∧
    (∀ i, s.tabs.findIdx? (fun t => t.id == tabId) = some i →
      (closeTab s tabId).tabs = s.tabs.eraseIdx i ∧
      (closeTab s tabId).activeTab =
        (if s.activeTab = some tabId then
          ((s.tabs.eraseIdx i)[min i ((s.tabs.eraseIdx i).length - 1)]?).map EditorTab.id
        else s.activeTab)) := by
  constructor
  · intro hmem
    have hfind : s.tabs.findIdx? (fun t => t.id == tabId) = none := by
      rw [List.findIdx?_eq_none_iff]
      intro t ht
      simp only [beq_eq_false_iff_ne, ne_eq]
      intro hid
      exact hmem (hid ▸ List.mem_map_of_mem EditorTab.id ht)
    simp only [closeTab, hfind]
  · intro i hfind
    have hcount : s.tabs.countP (fun t => t.id == tabId) ≤ 1 :=
      countP_le_one_of_nodup_map EditorTab.id tabId s.tabs hInv
    have herase0 : s.tabs.filter (fun t => !((fun u : EditorTab => u.id == tabId) t)) =
        s.tabs.eraseIdx i :=
      filter_not_eq_eraseIdx (fun u : EditorTab => u.id == tabId) s.tabs i hfind hcount
    have herase : s.tabs.filter (fun t => t.id != tabId) = s.tabs.eraseIdx i := herase0
    constructor
    · simp only [closeTab, hfind]
      exact herase
    · simp only [closeTab, hfind]
      by_cases hact : s.activeTab = some tabId
      · simp only [hact, if_true]
        rw [← herase]
        by_cases hlen : 0 < (s.tabs.filter (fun t => t.id != tabId)).length
        · have hlt : min i ((s.tabs.filter (fun t => t.id != tabId)).length - 1) <
              (s.tabs.filter (fun t => t.id != tabId)).length :=
            Nat.lt_of_le_of_lt (Nat.min_le_right _ _) (Nat.sub_lt hlen Nat.one_pos)
          rw [dif_pos hlen, List.getElem?_eq_getElem hlt]
          simp [List.get_eq_getElem]
        · rw [dif_neg hlen, List.getElem?_eq_none (by omega)]
          rfl
      · simp only [hact, if_false]

/-- Witness for C4: closing the active first tab of a two-tab state removes
it and activates the remaining tab. -/
theorem closeTab_behaviour_witness :
    (closeTab ⟨[⟨"id1", "a.html", "", "html", false⟩,
        ⟨"id2", "b.css", "", "css", true⟩], some "id1"⟩ "id1").tabs =
      ([⟨"id1", "a.html", "", "html", false⟩,
        ⟨"id2", "b.css", "", "css", true⟩] : List EditorTab).eraseIdx 0 ∧
    (closeTab ⟨[⟨"id1", "a.html", "", "html", false⟩,
        ⟨"id2", "b.css", "", "css", true⟩], some "id1"⟩ "id1").activeTab =
      (if (some "id1" : Option String) = some "id1" then
        ((([⟨"id1", "a.html", "", "html", false⟩,
          ⟨"id2", "b.css", "", "css", true⟩] : List EditorTab).eraseIdx 0)[min 0
            ((([⟨"id1", "a.html", "", "html", false⟩,
              ⟨"id2", "b.css", "", "css", true⟩] : List EditorTab).eraseIdx 0).length - 1)]?).map
          EditorTab.id
      else some "id1") :=
  (closeTab_behaviour ⟨[⟨"id1", "a.html", "", "html", false⟩,
      ⟨"id2", "b.css", "", "css", true⟩], some "id1"⟩
    (by unfold DistinctTabIds tabIds; decide) "id1").2 0 (by decide)

/-! ## Claim C10: `setActiveTab` performs no membership check -/

/-- Claim C10: `setActiveTab` stores the given id unconditionally, so for a
tabId not among the open tabs the resulting `activeTab` names no open tab;
the property that `activeTab` is null or the id of some open tab is
preserved by `createNewTab`, `openFile` and `closeTab`, but not by
`setActiveTab`. -/
theorem setActiveTab_unchecked :
    (∀ s tid, (setActiveTab s tid).activeTab = some tid) ∧
    (∀ s tid, tid ∉ tabIds s → ¬ ActiveTabValid (setActiveTab s tid)) ∧
    (∀ s id fn c, ActiveTabValid s → ActiveTabValid (createNewTab s id fn c)) ∧
    (∀ s id fn c, ActiveTabValid s → ActiveTabValid (openFile s id fn c)) ∧
    (∀ s tid, ActiveTabValid s → ActiveTabValid (closeTab s tid)) := by
  refine ⟨fun s tid => rfl, ?_, ?_, ?_, ?_⟩
  · intro s tid hmem hval
    cases hval with
    | inl h => exact Option.noConfusion h
    | inr h =>
      obtain ⟨t, ht, heq⟩ := h
      simp only [setActiveTab, Option.some.injEq] at heq
      exact hmem (heq ▸ List.mem_map_of_mem EditorTab.id ht)
  · intro s id fn c _
    right
    exact ⟨⟨id, fn, c, getLanguageFromFileName fn, true⟩, by simp [createNewTab], rfl⟩
  · intro s id fn c hval
    cases hfind : s.tabs.find? (fun t => t.fileName == fn) with
    | some t =>
      right
      refine ⟨t, ?_, ?_⟩
      · simp only [openFile, hfind]
        exact List.mem_of_find?_eq_some hfind
      · simp only [openFile, hfind]
    | none =>
      right
      exact ⟨⟨id, fn, c, getLanguageFromFileName fn, false⟩, by simp [openFile, hfind], by
        simp only [openFile, hfind]⟩
  · intro s tid hval
    cases hfind : s.tabs.findIdx? (fun t => t.id == tid) with
    | none => simpa only [ActiveTabValid, closeTab, hfind] using hval
    | some i =>
      simp only [ActiveTabValid, closeTab, hfind]
      by_cases hact : s.activeTab = some tid
      · simp only [hact, if_pos rfl]
        by_cases hlen : 0 < (s.tabs.filter (fun t => t.id != tid)).length
        · rw [dif_pos hlen]
          right
          exact ⟨_, List.get_mem _ _ _, rfl⟩
        · rw [dif_neg hlen]
          left
          rfl
      · rw [if_neg hact]
        cases hval with
        | inl h => exact Or.inl h
        | inr h =>
          obtain ⟨t, ht, heq⟩ := h
          right
          refine ⟨t, ?_, heq⟩
          rw [List.mem_filter]
          refine ⟨ht, ?_⟩
          simp only [bne_iff_ne, ne_eq]
          intro hid
          exact hact (heq.trans (by rw [hid]))
  
/-- Witness for C10: activating an id with no tab breaks validity. -/
theorem setActiveTab_unchecked_witness :
    ¬ ActiveTabValid (setActiveTab ⟨[], none⟩ "ghost") :=
  setActiveTab_unchecked.2.1 ⟨[], none⟩ "ghost" (by decide)

end HTMLCraft

namespace HTMLCraft

/-! ## Client file store (`src/client/src/store/fileStore.ts`)

A client `File` record; `path` is the optional Windows-style path field.
`renameFile` (fileStore.ts lines 221-269) is embedded by its effect on the
`files` list together with its success value: the thrown-and-caught error
paths leave `files` unchanged and return `false`; the remote `apiRequest`
calls (POST of the new name, DELETE of the old) do not touch the client
list and are assumed to succeed. -/

/-- A client file store entry (interface `File` of fileStore.ts). -/
structure CFile where
  name : String
  content : String
  path : Option String
deriving DecidableEq, Repr

/-- Embedding of `renameFile`: result list of `files` plus success flag. -/
def renameFile (files : List CFile) (oldName newName : String) : List CFile × Bool :=
  if oldName = "" ∨ newName = "" then (files, false)
  else if oldName = newName then (files, true)
  else
    match files.find? (fun f => f.name == oldName) with
    | none => (files, false)
    | some _ =>
      (files.map (fun f => if f.name == oldName then { f with name := newName } else f),
        true)

/-- The names of the entries of a client file store. -/
def cfileNames (files : List CFile) : List String :=
  files.map CFile.name

/-- Claim C2 fails on the code: renaming `"a.txt"` onto the already-present
name `"b.txt"` completes successfully but leaves two entries named
`"b.txt"`, so the file names are no longer pairwise distinct.  The input
store has pairwise-distinct names. -/
theorem renameFile_collision_duplicates :
    (cfileNames [⟨"a.txt", "A", none⟩, ⟨"b.txt", "B", none⟩]).Nodup ∧
    renameFile [⟨"a.txt", "A", none⟩, ⟨"b.txt", "B", none⟩] "a.txt" "b.txt" =
      ([⟨"b.txt", "A", none⟩, ⟨"b.txt", "B", none⟩], true) ∧
    ¬ (cfileNames [⟨"b.txt", "A", none⟩, ⟨"b.txt", "B", none⟩]).Nodup := by
  refine ⟨by decide, by decide, by decide⟩

end HTMLCraft

namespace HTMLCraft

/-! ## Server storage (`src/server/storage.ts`) and routes (`src/server/routes.ts`)

`MemStorage.files` is a JS `Map<string, File>` whose key always equals the
stored file's `name`; it is embedded as the list of stored files in
insertion order (JS `Map` set-or-overwrite and delete semantics). -/

/-- A server file (shared `File` schema: name and content). -/
structure SFile where
  name : String
  content : String
deriving DecidableEq, Repr

/-- The state of `MemStorage.files`. -/
abbrev FileMap := List SFile

/-- JS `Map.get` (first entry with the given key). -/
def mapGet (m : FileMap) (name : String) : Option SFile :=
  m.find? (fun f => f.name == name)

/-- JS `Map.has`. -/
def mapHas (m : FileMap) (name : String) : Bool :=
  (mapGet m name).isSome

/-- JS `Map.set`: overwrite the existing entry for the key, else append. -/
def mapSet (m : FileMap) (file : SFile) : FileMap :=
  if mapHas m file.name then
    m.map (fun g => if g.name == file.name then file else g)
  else m ++ [file]

/-- JS `Map.delete` of the (unique) entry with the given key. -/
def mapDelete (m : FileMap) (name : String) : FileMap :=
  m.eraseP (fun f => f.name == name)

/-- `MemStorage.createFile` (storage.ts lines 515-519). -/
def createFile (m : FileMap) (name content : String) : FileMap × SFile :=
  (mapSet m ⟨name, content⟩, ⟨name, content⟩)

/-- `MemStorage.updateFile` (storage.ts lines 521-531): `undefined` when the
file does not exist, else overwrite the content. -/
def updateFile (m : FileMap) (name content : String) : FileMap × Option SFile :=
  match mapGet m name with
  | none => (m, none)
  | some existingFile =>
    let updatedFile : SFile := ⟨existingFile.name, content⟩
    (mapSet m updatedFile, some updatedFile)

/-- `MemStorage.deleteFile` (storage.ts lines 533-539). -/
def deleteFile (m : FileMap) (name : String) : FileMap × Bool :=
  if mapHas m name then (mapDelete m name, true) else (m, false)

/-- A JSON response body: either an error object or a file object. -/
inductive RespBody where
  | err (msg : String)
  | filePayload (name content : String)
deriving DecidableEq, Repr

/-- An HTTP response: status code and optional JSON body (`204 .end()` has
no body). -/
structure Resp where
  status : Nat
  body : Option RespBody
deriving DecidableEq, Repr

/-- `DELETE /api/files/:name` (routes.ts lines 83-96): 404 when
`deleteFile` reports failure, else 204 with no body. -/
def deleteFileRoute (m : FileMap) (name : String) : FileMap × Resp :=
  let result := deleteFile m name
  if result.2 then (result.1, ⟨204, none⟩)
  else (result.1, ⟨404, some (.err "File not found")⟩)

/-- First version of `PUT /api/files/:name` (routes.ts lines 46-81): 400
when the body has no content; update the file when it exists, create it
otherwise; 500 when no file results; else respond with the file. -/
def putFileRouteV1 (m : FileMap) (name : String) (content : Option String) :
    FileMap × Resp :=
  match content with
  | none => (m, ⟨400, some (.err "File content is required")⟩)
  | some c =>
    match mapGet m name with
    | some _ =>
      let result := updateFile m name c
      match result.2 with
      | some f => (result.1, ⟨200, some (.filePayload f.name f.content)⟩)
      | none => (result.1, ⟨500, some (.err "Failed to save file")⟩)
    | none =>
      let result := createFile m name c
      (result.1, ⟨200, some (.filePayload result.2.name result.2.content)⟩)

/-- Second version of `PUT /api/files/:name` (routes.ts lines 146-165): 400
when the body has no content; 404 when `updateFile` finds no file; else
respond with the updated file. -/
def putFileRouteV2 (m : FileMap) (name : String) (content : Option String) :
    FileMap × Resp :=
  match content with
  | none => (m, ⟨400, some (.err "File content is required")⟩)
  | some c =>
    let result := updateFile m name c
    match result.2 with
    | some f => (result.1, ⟨200, some (.filePayload f.name f.content)⟩)
    | none => (m, ⟨404, some (.err "File not found")⟩)

/-- The keys of the server file map. -/
def mapNames (m : FileMap) : List String :=
  m.map SFile.name

/-! ## Claim C5: behaviour of `DELETE /api/files/:name` -/

theorem eraseP_eq_filter_of_countP_le_one {α : Type} (p : α → Bool) :
    ∀ (l : List α), l.countP p ≤ 1 → l.eraseP p = l.filter (fun a => !p a) := by
  intro l
  induction l with
  | nil => intro _; rfl
  | cons a as ih =>
    intro hcount
    rw [List.countP_cons] at hcount
    by_cases hpa : p a
    · rw [if_pos hpa] at hcount
      have hz : as.countP p = 0 := by omega
      rw [List.countP_eq_zero] at hz
      have hself : as.filter (fun a => !p a) = as := by
        rw [List.filter_eq_self]
        intro b hb
        simp [hz b hb]
      rw [List.eraseP_cons_of_pos hpa, List.filter_cons_of_neg, hself]
      simp [hpa]
    · rw [if_neg hpa] at hcount
      rw [List.eraseP_cons_of_neg (by simp [hpa]), List.filter_cons_of_pos, ih hcount]
      simp [hpa]

/-- Claim C5: deleting a name absent from the server storage responds 404
with error `File not found` and leaves the map unchanged; deleting an
existing name responds 204 with no body and removes exactly that entry. -/
theorem deleteFileRoute_behaviour (m : FileMap) (hm : (mapNames m).Nodup) (name : String) :
    (name ∉ mapNames m →
      deleteFileRoute m name = (m, ⟨404, some (.err "File not found")⟩)) ∧
    (name ∈ mapNames m →
      deleteFileRoute m name = (m.filter (fun f => !(f.name == name)), ⟨204, none⟩)) := by
  constructor
  · intro hmem
    have hget : mapGet m name = none := by
      rw [mapGet, List.find?_eq_none]
      intro f hf
      simp only [beq_iff_eq]
      intro hname
      exact hmem (hname ▸ List.mem_map_of_mem SFile.name hf)
    simp only [deleteFileRoute, deleteFile, mapHas, hget]
    rfl
  · intro hmem
    have hsome : (mapGet m name).isSome := by
      rw [mapGet, List.find?_isSome]
      obtain ⟨f, hf, hname⟩ := List.mem_map.mp hmem
      exact ⟨f, hf, by simp [hname]⟩
    have herase : m.eraseP (fun f => f.name == name) = m.filter (fun f => !(f.name == name)) :=
      eraseP_eq_filter_of_countP_le_one _ m
        (countP_le_one_of_nodup_map SFile.name name m hm)
    simp only [deleteFileRoute, deleteFile, mapHas, hsome, if_true, mapDelete, herase]

/-- Witness for C5: deleting an existing file from a two-file map. -/
theorem deleteFileRoute_behaviour_witness :
    deleteFileRoute [⟨"index.html", "<p>hi</p>"⟩, ⟨"styles.css", "body"⟩] "index.html" =
      (([⟨"index.html", "<p>hi</p>"⟩, ⟨"styles.css", "body"⟩] : FileMap).filter
        (fun f => !(f.name == "index.html")), ⟨204, none⟩) :=
  (deleteFileRoute_behaviour [⟨"index.html", "<p>hi</p>"⟩, ⟨"styles.css", "body"⟩]
    (by unfold mapNames; decide) "index.html").2 (by decide)

end HTMLCraft

namespace HTMLCraft

/-! ## Claim C6: the two PUT handlers -/

/-- Claim C6 fails on the code: for a name absent from the storage and a
defined content, the first PUT handler creates the file and responds 200
while the second responds 404 and leaves the map unchanged. -/
theorem putFileRoutes_differ :
    putFileRouteV1 [] "a.html" (some "x") ≠ putFileRouteV2 [] "a.html" (some "x") := by
  decide

/-- Amended claim C6: the two PUT handlers agree whenever the named file
exists in the storage or the request content is undefined; when the name is
absent and the content defined, the first handler appends the new file and
responds 200 with it, while the second leaves the map unchanged and
responds 404 `File not found`. -/
theorem putFileRoutes_agreement (m : FileMap) (name : String) (content : Option String) :
    ((mapHas m name = true ∨ content = none) →
      putFileRouteV1 m name content = putFileRouteV2 m name content) ∧
    (∀ c, content = some c → mapHas m name = false →
      putFileRouteV1 m name content =
        (m ++ [⟨name, c⟩], ⟨200, some (.filePayload name c)⟩) ∧
      putFileRouteV2 m name content = (m, ⟨404, some (.err "File not found")⟩)) := by
  constructor
  · intro h
    cases content with
    | none => rfl
    | some c =>
      cases hget : mapGet m name with
      | some f => simp only [putFileRouteV1, putFileRouteV2, updateFile, hget]
      | none =>
        exfalso
        cases h with
        | inl hhas => rw [mapHas, hget] at hhas; simp at hhas
        | inr hnone => exact Option.noConfusion hnone
  · intro c hc hhas
    subst hc
    have hget : mapGet m name = none := by
      rw [mapHas] at hhas
      cases hg : mapGet m name with
      | none => rfl
      | some f => rw [hg] at hhas; simp at hhas
    constructor
    · simp only [putFileRouteV1, hget, createFile, mapSet, mapHas, hget, Option.isSome_none,
        Bool.false_eq_true, if_false]
    · simp only [putFileRouteV2, updateFile, hget]

/-- Witness for C6 (amended): on a map containing the file, both handlers
give the same result. -/
theorem putFileRoutes_agreement_witness :
    putFileRouteV1 [⟨"a.html", "old"⟩] "a.html" (some "new") =
      putFileRouteV2 [⟨"a.html", "old"⟩] "a.html" (some "new") :=
  (putFileRoutes_agreement [⟨"a.html", "old"⟩] "a.html" (some "new")).1 (Or.inl (by decide))

end HTMLCraft

namespace HTMLCraft

/-! ## Claim C9: `debounce` (utils.ts lines 61-78)

The debounce closure keeps one pending timeout (`timeout`), cancelled and
re-armed on every call, and the armed `later` callback invokes the wrapped
function with the arguments of the arming call.  Its semantics under the
single-threaded event-loop clock: a call at time `t` first lets a pending
timer whose deadline has already passed fire, then replaces the pending
timer by one with deadline `t + wait` and the new arguments.  `debounceRun`
runs a time-ordered list of calls from a pending state and returns the list
of (time, argument) pairs at which the wrapped function fires. -/

/-- Event-loop semantics of the closure returned by `debounce`. -/
def debounceRun {α : Type} (wait : Nat) :
    List (Nat × α) → Option (Nat × α) → List (Nat × α)
  | [], pending =>
    match pending with
    | some d => [d]
    | none => []
  | (t, a) :: rest, pending =>
    (match pending with
     | some d => if d.1 ≤ t then [d] else []
     | none => []) ++ debounceRun wait rest (some (t + wait, a))

/-- A burst: consecutive calls are in time order and each arrives strictly
before the previous call's wait interval elapses. -/
def BurstCalls {α : Type} (wait : Nat) (calls : List (Nat × α)) : Prop :=
  calls.Chain' (fun p q => p.1 < q.1 ∧ q.1 < p.1 + wait)

theorem debounceRun_burst_aux {α : Type} (wait : Nat) :
    ∀ (cs : List (Nat × α)) (c : Nat × α),
      List.Chain' (fun p q : Nat × α => p.1 < q.1 ∧ q.1 < p.1 + wait) (c :: cs) →
      debounceRun wait cs (some (c.1 + wait, c.2)) =
        [(((c :: cs).getLast (List.cons_ne_nil c cs)).1 + wait,
          ((c :: cs).getLast (List.cons_ne_nil c cs)).2)] := by
  intro cs
  induction cs with
  | nil =>
    intro c _
    rfl
  | cons c2 cs2 ih =>
    intro c hchain
    rw [List.chain'_cons] at hchain
    have hlt : ¬ c.1 + wait ≤ c2.1 := by omega
    have hfire : debounceRun wait (c2 :: cs2) (some (c.1 + wait, c.2)) =
        debounceRun wait cs2 (some (c2.1 + wait, c2.2)) := by
      show (match (some (c.1 + wait, c.2) : Option (Nat × α)) with
        | some d => if d.1 ≤ c2.1 then [d] else []
        | none => []) ++ debounceRun wait cs2 (some (c2.1 + wait, c2.2)) = _
      simp [hlt]
    rw [hfire, ih c2 hchain.2]
    congr 1

/-- Claim C9: for every burst of calls (each arriving strictly before the
previous call's wait interval elapses), the wrapped function fires exactly
once, at `wait` after the final call, with the final call's arguments. -/
theorem debounce_coalesces {α : Type} (wait : Nat) (calls : List (Nat × α))
    (hne : calls ≠ []) (hburst : BurstCalls wait calls) :
    debounceRun wait calls none =
      [((calls.getLast hne).1 + wait, (calls.getLast hne).2)] := by
  cases calls with
  | nil => exact absurd rfl hne
  | cons c cs =>
    have : debounceRun wait (c :: cs) none =
        debounceRun wait cs (some (c.1 + wait, c.2)) := rfl
    rw [this, debounceRun_burst_aux wait cs c hburst]

/-- Witness for C9: two calls at times 0 and 1 with wait 5 produce exactly
one firing, at time 6, with the second call's argument. -/
theorem debounce_coalesces_witness :
    debounceRun 5 [(0, "a"), (1, "b")] none = [(6, "b")] := by
  have h := debounce_coalesces 5 [(0, "a"), (1, "b")] (by simp)
    (by constructor <;> simp)
  simpa using h

end HTMLCraft

namespace HTMLCraft

/-! ## Claim C7: the language is determined by the text after the last dot

`extAfterLast` follows the claim's wording: the (optional) text after the
last occurrence of the separator, `none` when the separator does not occur.
`languageSpec` is the claimed characterisation of
`getLanguageFromFileName`. -/

/-- The text after the last occurrence of `sep`, if `sep` occurs. -/
def extAfterLast (sep : Char) : List Char → Option (List Char)
  | [] => none
  | c :: cs =>
    if c = sep then some ((extAfterLast sep cs).getD cs) else extAfterLast sep cs

/-- The claimed specification of `getLanguageFromFileName`: the language is
determined solely by the lower-cased text after the last `'.'`; names
without a dot map to `plaintext`. -/
def languageSpec (fileName : String) : String :=
  match extAfterLast '.' fileName.data with
  | none => "plaintext"
  | some ext => langOfExt (String.mk (ext.map Char.toLower))

theorem jsSplit_ne_nil (sep : Char) : ∀ l : List Char, jsSplit sep l ≠ [] := by
  intro l
  induction l with
  | nil => simp [jsSplit]
  | cons c cs ih =>
    rw [jsSplit]
    by_cases hc : c = sep
    · simp [hc]
    · simp only [hc, if_false]
      cases h : jsSplit sep cs with
      | nil => exact absurd h ih
      | cons r rs => simp

theorem jsSplit_getLast_length (sep : Char) : ∀ l : List Char,
    (jsSplit sep l).getLast? = some ((extAfterLast sep l).getD l) ∧
    (1 < (jsSplit sep l).length ↔ (extAfterLast sep l).isSome) := by
  intro l
  induction l with
  | nil => exact ⟨rfl, by simp [jsSplit, extAfterLast]⟩
  | cons c cs ih =>
    cases hrest : jsSplit sep cs with
    | nil => exact absurd hrest (jsSplit_ne_nil sep cs)
    | cons r rs =>
      by_cases hc : c = sep
      · have hsplit : jsSplit sep (c :: cs) = [] :: r :: rs := by
          rw [jsSplit]
          simp [hc, hrest]
        have hext : extAfterLast sep (c :: cs) = some ((extAfterLast sep cs).getD cs) := by
          rw [extAfterLast]
          simp [hc]
        constructor
        · rw [hsplit, List.getLast?_cons_cons, ← hrest, ih.1, hext]
          simp
        · rw [hsplit, hext]
          simp
      · have hsplit : jsSplit sep (c :: cs) = (c :: r) :: rs := by
          rw [jsSplit]
          simp [hc, hrest]
        have hext : extAfterLast sep (c :: cs) = extAfterLast sep cs := by
          rw [extAfterLast]
          simp [hc]
        cases rs with
        | nil =>
          have hnone : extAfterLast sep cs = none := by
            cases hcs : extAfterLast sep cs with
            | none => rfl
            | some x =>
              have h2 := ih.2
              rw [hrest, hcs] at h2
              simp at h2
          have hr : r = cs := by
            have h1 := ih.1
            rw [hrest, hnone] at h1
            simpa using h1
          constructor
          · rw [hsplit, hext, hnone]
            simp [hr]
          · rw [hsplit, hext, hnone]
            simp
        | cons r2 rs2 =>
          have hsome : (extAfterLast sep cs).isSome := by
            rw [← ih.2, hrest]
            simp
          obtain ⟨e, he⟩ := Option.isSome_iff_exists.mp hsome
          have h2 : (r2 :: rs2).getLast? = (jsSplit sep cs).getLast? := by
            rw [hrest, List.getLast?_cons_cons]
          constructor
          · rw [hsplit, List.getLast?_cons_cons, h2, ih.1, hext, he]
            simp
          · rw [hsplit, hext, he]
            simp

/-- Claim C7: `getLanguageFromFileName` returns the language determined
solely by the lower-cased text after the last `'.'` of the name (html/htm,
css, js, ts, json, md as specified, `plaintext` otherwise and for names
with no dot). -/
theorem getLanguageFromFileName_spec (fileName : String) :
    getLanguageFromFileName fileName = languageSpec fileName := by
  unfold getLanguageFromFileName languageSpec getFileExtension jsSplitStr
  cases h : extAfterLast '.' fileName.data with
  | none =>
    have hlen : ¬ 1 < ((jsSplit '.' fileName.data).map String.mk).length := by
      rw [List.length_map]
      intro hgt
      have := (jsSplit_getLast_length '.' fileName.data).2.mp hgt
      rw [h] at this
      simp at this
    simp only [hlen, if_false]
    rfl
  | some e =>
    have hlen : 1 < ((jsSplit '.' fileName.data).map String.mk).length := by
      rw [List.length_map]
      exact (jsSplit_getLast_length '.' fileName.data).2.mpr (by rw [h]; rfl)
    have hlast : ((jsSplit '.' fileName.data).map String.mk).getLastD "" = String.mk e := by
      rw [List.getLastD_eq_getLast?, List.getLast?_map,
        (jsSplit_getLast_length '.' fileName.data).1, h]
      rfl
    simp only [hlen, if_true, hlast]
    rfl

end HTMLCraft

namespace HTMLCraft

/-! ## The file tree builder (`buildFileTree` in `src/unnamed/part_008`)

The JS function first sorts the files (segmentwise `localeCompare`, then
segment count), then in one pass builds a mutable record `folderMap` from
folder paths to folder nodes, pushing each newly created folder node into
its parent's `children` and finally pushing a file node into the children
of `folderMap[parentPath]` (falling back to the root's children when that
lookup fails).  Because every node is reachable from exactly the chain of
its `folderMap` key, the mutable object graph is embedded as the
association list of folder entries (`FolderMap`); `materializeFolder` then
reads back the tree that the returned `root` object denotes.
`localeCompare` is modelled as code-point comparison; the sort order only
permutes the input, which the checked properties do not depend on.  The
UI-only `expanded` flag is omitted from the node records. -/

/-- A child slot of a folder node: a reference to a folder entry of the
map, or an inline file node. -/
inductive RawChild where
  | folderRef (path : String)
  | fileLeaf (name path content : String)
deriving DecidableEq, Repr

/-- A folder node as stored in `folderMap`. -/
structure FolderEntry where
  name : String
  children : List RawChild
deriving DecidableEq, Repr

/-- The `folderMap` record: folder path to folder node, in creation order. -/
abbrev FolderMap := List (String × FolderEntry)

/-- Own-property lookup on the record: the part of the read
`folderMap[path]` that sees the entries the code itself stored.  The
`folderMap` of the source is a plain object literal, so the full read also
returns inherited `Object.prototype` members for the keys in `protoKeys`;
`objTruthy` below models the truthiness of the full read. -/
def fmLookup (m : FolderMap) (p : String) : Option FolderEntry :=
  (m.find? (fun e => e.1 == p)).map Prod.snd

/-- The mutation `folderMap[path].children.push(c)`. -/
def fmPush (m : FolderMap) (p : String) (c : RawChild) : FolderMap :=
  m.map (fun e => if e.1 == p then (e.1, ⟨e.2.name, e.2.children ++ [c]⟩) else e)

/-- The path extension `currentPath ? currentPath + '/' + part : part`. -/
def jsJoin (cur part : String) : String :=
  if cur = "" then part else cur ++ "/" ++ part

/-- JS `parts.join('/')`. -/
def joinSlash : List String → String
  | [] => ""
  | [p] => p
  | p :: q :: ps => p ++ "/" ++ joinSlash (q :: ps)

/-- The first-pass loop over `parts[0..parts.length-2]` creating the folder
nodes for one file (`buildFileTree`, lines 305-331), in the idealized
prototype-free reading where `folderMap[path]` sees only the entries the
code stored.  The faithful loop, in which the read also hits inherited
`Object.prototype` members, is `addFoldersE` below; the two agree exactly
when no key walked is an `Object.prototype` property name. -/
def addFolders (m : FolderMap) (cur : String) : List String → FolderMap
  | [] => m
  | part :: rest =>
    let parentPath := cur
    let currentPath := jsJoin cur part
    let m2 :=
      if (fmLookup m currentPath).isSome then m
      else
        let m3 := m ++ [(currentPath, ⟨part, []⟩)]
        if (fmLookup m3 parentPath).isSome then
          fmPush m3 parentPath (.folderRef currentPath)
        else m3
    addFolders m2 currentPath rest

/-- Processing of one file in the `sortedFiles.forEach` pass: create the
parent folders, then push the file node into `folderMap[parentPath]`,
falling back to the root (key `""`) when the lookup fails.  Idealized
prototype-free reading; the faithful version is `processFileE` below. -/
def processFile (m : FolderMap) (f : CFile) : FolderMap :=
  let parts := jsSplitStr '/' f.name
  let m1 := addFolders m "" parts.dropLast
  let fileName := parts.getLastD ""
  let parentPath := if 1 < parts.length then joinSlash parts.dropLast else ""
  let leaf := RawChild.fileLeaf fileName f.name f.content
  if (fmLookup m1 parentPath).isSome then fmPush m1 parentPath leaf
  else fmPush m1 "" leaf

/-- Lexicographic code-point order on character lists. -/
def charListLt : List Char → List Char → Bool
  | [], [] => false
  | [], _ :: _ => true
  | _ :: _, [] => false
  | a :: as, b :: bs => if a < b then true else if b < a then false else charListLt as bs

/-- `localeCompare`, modelled as code-point string comparison. -/
def strCompare (a b : String) : Int :=
  if charListLt a.data b.data then -1 else if charListLt b.data a.data then 1 else 0

/-- The sort comparator of `buildFileTree` (lines 290-303): compare path
segments in order, then segment counts. -/
def cmpSegs : List String → List String → Int
  | [], [] => 0
  | [], _ :: bs => -((bs.length : Int) + 1)
  | _ :: as, [] => (as.length : Int) + 1
  | a :: as, b :: bs => if a ≠ b then strCompare a b else cmpSegs as bs

/-- The comparator applied to two files. -/
def fileCompare (a b : CFile) : Int :=
  cmpSegs (jsSplitStr '/' a.name) (jsSplitStr '/' b.name)

/-- The `[...files].sort(...)` step; `Array.prototype.sort` produces a
sorted permutation of its input. -/
def sortFiles (files : List CFile) : List CFile :=
  files.insertionSort (fun a b => fileCompare a b ≤ 0)

/-- The whole first pass of `buildFileTree`: fold over the sorted files
starting from the map that holds only the root node.  Idealized
prototype-free reading; the faithful version is `buildMapE` below. -/
def buildMap (files : List CFile) : FolderMap :=
  (sortFiles files).foldl processFile [("", ⟨"root", []⟩)]

/-- The tree denoted by the returned `root` object (`FileNode` of the
source, with the UI-only `expanded` flag omitted; `content` is only
present on file nodes). -/
inductive FileNode where
  | file (name path content : String)
  | folder (name path : String) (children : List FileNode)

def FileNode.path : FileNode → String
  | .file _ p _ => p
  | .folder _ p _ => p

def FileNode.name : FileNode → String
  | .file n _ _ => n
  | .folder n _ _ => n

def FileNode.isFolder : FileNode → Bool
  | .file _ _ _ => false
  | .folder _ _ _ => true

def FileNode.contentOf : FileNode → Option String
  | .file _ _ c => some c
  | .folder _ _ _ => none

/-- Reading back the object graph from the map: the folder node at key `p`
with its children resolved, to depth `fuel` (any `fuel` at least the chain
depth of the map gives the denoted tree). -/
def materializeFolder (m : FolderMap) : Nat → String → String → FileNode
  | 0, p, nm => .folder nm p []
  | fuel + 1, p, nm =>
    let kids := ((fmLookup m p).map FolderEntry.children).getD []
    .folder nm p (kids.map (fun c =>
      match c with
      | .folderRef q =>
          materializeFolder m fuel q (((fmLookup m q).map FolderEntry.name).getD "")
      | .fileLeaf n pth ct => .file n pth ct))

/-- `buildFileTree(files)`: first pass, then the denoted tree of `root`,
in the idealized prototype-free reading; the faithful version is
`buildFileTreeE` below. -/
def buildFileTree (files : List CFile) : FileNode :=
  let m := buildMap files
  materializeFolder m (m.length + 1) "" "root"

/-- The own property names of `Object.prototype`: a property read on the
plain object literal `folderMap` also returns these inherited members,
every one of which is truthy (a function, or `Object.prototype` itself
for the `__proto__` accessor) and has no `children` field. -/
def protoKeys : List String :=
  ["constructor", "hasOwnProperty", "isPrototypeOf", "propertyIsEnumerable",
   "toLocaleString", "toString", "valueOf", "__proto__", "__defineGetter__",
   "__defineSetter__", "__lookupGetter__", "__lookupSetter__"]

/-- Truthiness of the full record read `folderMap[p]`: an own entry, or an
inherited `Object.prototype` member. -/
def objTruthy (m : FolderMap) (p : String) : Bool :=
  (fmLookup m p).isSome || protoKeys.contains p

/-- The faithful first-pass loop: `if (!folderMap[currentPath])` skips
creation whenever the read is truthy (own entry or inherited member), and
inside the creation branch `const parent = folderMap[parentPath];
if (parent) parent.children.push(newFolder)` pushes when the parent is an
own entry, throws a `TypeError` (modelled `Except.error ()`) when it is a
truthy inherited member whose `children` is `undefined`, and does nothing
when the read is `undefined`. -/
def addFoldersE (m : FolderMap) (cur : String) : List String → Except Unit FolderMap
  | [] => .ok m
  | part :: rest =>
    let parentPath := cur
    let currentPath := jsJoin cur part
    if objTruthy m currentPath then addFoldersE m currentPath rest
    else
      let m3 := m ++ [(currentPath, ⟨part, []⟩)]
      if (fmLookup m3 parentPath).isSome then
        addFoldersE (fmPush m3 parentPath (.folderRef currentPath)) currentPath rest
      else if protoKeys.contains parentPath then Except.error ()
      else addFoldersE m3 currentPath rest

/-- The faithful processing of one file: create the parent folders, then
`const parent = folderMap[parentPath]; if (parent)
parent.children.push(fileNode); else root.children.push(fileNode)` — the
push throws a `TypeError` when the truthy `parent` is an inherited
`Object.prototype` member. -/
def processFileE (m : FolderMap) (f : CFile) : Except Unit FolderMap :=
  let parts := jsSplitStr '/' f.name
  let fileName := parts.getLastD ""
  let parentPath := if 1 < parts.length then joinSlash parts.dropLast else ""
  let leaf := RawChild.fileLeaf fileName f.name f.content
  match addFoldersE m "" parts.dropLast with
  | .error e => .error e
  | .ok m1 =>
    if (fmLookup m1 parentPath).isSome then .ok (fmPush m1 parentPath leaf)
    else if protoKeys.contains parentPath then Except.error ()
    else .ok (fmPush m1 "" leaf)

/-- The `sortedFiles.forEach` pass with crash propagation. -/
def foldProcessE : FolderMap → List CFile → Except Unit FolderMap
  | m, [] => .ok m
  | m, f :: rest =>
    match processFileE m f with
    | .ok m2 => foldProcessE m2 rest
    | .error e => .error e

/-- The faithful first pass of `buildFileTree`. -/
def buildMapE (files : List CFile) : Except Unit FolderMap :=
  foldProcessE [("", ⟨"root", []⟩)] (sortFiles files)

/-- `buildFileTree(files)` with the plain-object record semantics: the
denoted tree of `root` on normal return, or the propagated `TypeError`. -/
def buildFileTreeE (files : List CFile) : Except Unit FileNode :=
  match buildMapE files with
  | .ok m => .ok (materializeFolder m (m.length + 1) "" "root")
  | .error e => .error e

/-- The keys formed by the `currentPath` walk of the first-pass loop. -/
def jsChainKeys (cur : String) : List String → List String
  | [] => []
  | part :: rest => jsJoin cur part :: jsChainKeys (jsJoin cur part) rest

/-! ### Observations of the returned tree -/

/-- All nodes of a tree, each with the list of the paths of its enclosing
folders, outermost first (`fuel` bounds the recursion depth). -/
def collectNodes : Nat → List String → FileNode → List (List String × FileNode)
  | 0, _, _ => []
  | _ + 1, anc, .file n p c => [(anc, .file n p c)]
  | fuel + 1, anc, .folder n p cs =>
    (anc, .folder n p cs) :: (cs.map (fun c => collectNodes fuel (anc ++ [p]) c)).flatten

/-- The `'/'`-segments of a file name. -/
def splitName (name : String) : List String :=
  jsSplitStr '/' name

/-- The last segment of a file name. -/
def baseOf (name : String) : String :=
  (splitName name).getLastD ""

/-- The proper `'/'`-delimited directory parts of a name, shortest first:
for `a/b/c.txt` the list `[a, a/b]`. -/
def dirChain (name : String) : List String :=
  (List.range ((splitName name).length - 1)).map
    (fun i => joinSlash ((splitName name).take (i + 1)))

/-- All node occurrences of the tree built from `files`, with enclosing
folder paths (the collection depth exceeds the materialisation depth, so
nothing is truncated). -/
def treeOccs (files : List CFile) : List (List String × FileNode) :=
  collectNodes ((buildMap files).length + 3) [] (buildFileTree files)

/-- The occurrence is a file node with the given path. -/
def isLeafFor (nm : String) (o : List String × FileNode) : Bool :=
  !o.2.isFolder && (o.2.path == nm)

/-- The occurrence is a folder node with the given path. -/
def isFolderAt (p : String) (o : List String × FileNode) : Bool :=
  o.2.isFolder && (o.2.path == p)

/-- The property claimed of `buildFileTree`: every file appears exactly
once, as a leaf whose path is the file's full name, whose name is the last
segment and content the file's content, and whose enclosing folders are the
root followed by one folder per proper directory part of the name; and each
distinct proper directory part has exactly one folder node. -/
def buildTreeClaim (files : List CFile) : Prop :=
  ∀ f ∈ files,
    ((treeOccs files).filter (isLeafFor f.name)).length = 1 ∧
    (∀ o ∈ (treeOccs files).filter (isLeafFor f.name),
      o.1 = "" :: dirChain f.name ∧ o.2.name = baseOf f.name ∧
      o.2.contentOf = some f.content) ∧
    (∀ p ∈ dirChain f.name, ((treeOccs files).filter (isFolderAt p)).length = 1)

end HTMLCraft

namespace HTMLCraft

/-! ### Segment arithmetic for `'/'`-separated names

A name is *good* when none of its `'/'`-segments is empty; on good names
the `jsJoin` chain walked by `addFolders` coincides with `joinSlash` of the
segment blocks, which is what the amended claim C8 is about. -/

/-- A list of segments with no empty segment and no `'/'` inside any
segment. -/
def goodSegs (L : List String) : Prop :=
  ∀ x ∈ L, x ≠ "" ∧ ('/' : Char) ∉ x.data

/-- A file name whose `'/'`-segments are all nonempty. -/
def GoodName (name : String) : Prop :=
  "" ∉ splitName name

theorem string_eq_empty_iff (s : String) : s = "" ↔ s.data = [] := by
  cases s with
  | mk d => simp [String.ext_iff]

theorem jsSplit_cons_sep (sep : Char) (cs : List Char) :
    jsSplit sep (sep :: cs) = [] :: jsSplit sep cs := by
  rw [jsSplit]
  simp

theorem jsSplit_cons_ne (sep c : Char) (cs : List Char) (hc : ¬ c = sep) (r : List Char)
    (rs : List (List Char)) (hrest : jsSplit sep cs = r :: rs) :
    jsSplit sep (c :: cs) = (c :: r) :: rs := by
  rw [jsSplit]
  simp [hc, hrest]

theorem jsSplit_sep_not_mem (sep : Char) :
    ∀ l : List Char, ∀ part ∈ jsSplit sep l, sep ∉ part := by
  intro l
  induction l with
  | nil =>
    intro part hp
    simp only [jsSplit, List.mem_singleton] at hp
    simp [hp]
  | cons c cs ih =>
    intro part hp
    cases hrest : jsSplit sep cs with
    | nil => exact absurd hrest (jsSplit_ne_nil sep cs)
    | cons r rs =>
      by_cases hc : c = sep
      · subst hc
        rw [jsSplit_cons_sep] at hp
        rcases List.mem_cons.mp hp with h | h
        · simp [h]
        · exact ih part h
      · rw [jsSplit_cons_ne sep c cs hc r rs hrest] at hp
        rcases List.mem_cons.mp hp with h | h
        · subst h
          intro hmem
          rcases List.mem_cons.mp hmem with h2 | h2
          · exact hc h2.symm
          · exact ih r (by rw [hrest]; exact List.mem_cons_self r rs) h2
        · exact ih part (by rw [hrest]; exact List.mem_cons_of_mem r h)

theorem jsSplit_append (sep : Char) :
    ∀ xs ys : List Char, sep ∉ xs →
      jsSplit sep (xs ++ sep :: ys) = xs :: jsSplit sep ys := by
  intro xs
  induction xs with
  | nil =>
    intro ys _
    rw [List.nil_append, jsSplit_cons_sep]
  | cons x xs ih =>
    intro ys hx
    have hxs : sep ∉ xs := fun h => hx (List.mem_cons_of_mem x h)
    have hxne : ¬ x = sep := fun h => hx (h ▸ List.mem_cons_self x xs)
    rw [List.cons_append]
    cases h : jsSplit sep (xs ++ sep :: ys) with
    | nil => exact absurd h (jsSplit_ne_nil sep _)
    | cons r rs =>
      rw [jsSplit_cons_ne sep x _ hxne r rs h]
      rw [ih ys hxs] at h
      cases h
      rfl

theorem jsSplit_of_not_mem (sep : Char) :
    ∀ xs : List Char, sep ∉ xs → jsSplit sep xs = [xs] := by
  intro xs
  induction xs with
  | nil => intro _; rfl
  | cons x xs ih =>
    intro hx
    have hxs : sep ∉ xs := fun h => hx (List.mem_cons_of_mem x h)
    have hxne : ¬ x = sep := fun h => hx (h ▸ List.mem_cons_self x xs)
    rw [jsSplit_cons_ne sep x xs hxne xs [] (ih hxs)]

theorem joinSlash_cons_cons (p q : String) (ps : List String) :
    joinSlash (p :: q :: ps) = p ++ "/" ++ joinSlash (q :: ps) := rfl

theorem splitName_joinSlash :
    ∀ L : List String, L ≠ [] → goodSegs L → splitName (joinSlash L) = L := by
  intro L
  induction L with
  | nil => intro h; exact absurd rfl h
  | cons p ps ih =>
    intro _ hgood
    cases ps with
    | nil =>
      have hp := hgood p (List.mem_cons_self p [])
      show (jsSplit '/' p.data).map String.mk = [p]
      rw [jsSplit_of_not_mem '/' p.data hp.2]
      rfl
    | cons q qs =>
      have hp := hgood p (List.mem_cons_self p _)
      have hrec : splitName (joinSlash (q :: qs)) = q :: qs :=
        ih (by simp) (fun x hx => hgood x (List.mem_cons_of_mem p hx))
      rw [joinSlash_cons_cons]
      show (jsSplit '/' (p ++ "/" ++ joinSlash (q :: qs)).data).map String.mk = _
      rw [String.data_append, String.data_append]
      have hslash : ("/" : String).data = ['/'] := rfl
      rw [hslash, List.append_assoc, List.singleton_append, jsSplit_append '/' _ _ hp.2]
      rw [List.map_cons]
      show String.mk p.data :: splitName (joinSlash (q :: qs)) = _
      rw [hrec]

theorem joinSlash_map_mk_jsSplit :
    ∀ d : List Char, (joinSlash ((jsSplit '/' d).map String.mk)).data = d := by
  intro d
  induction d with
  | nil => rfl
  | cons c cs ih =>
    cases hrest : jsSplit '/' cs with
    | nil => exact absurd hrest (jsSplit_ne_nil '/' cs)
    | cons r rs =>
      rw [hrest, List.map_cons] at ih
      by_cases hc : c = '/'
      · subst hc
        rw [jsSplit_cons_sep, hrest, List.map_cons, List.map_cons, joinSlash_cons_cons]
        rw [String.data_append, String.data_append]
        show ([] : List Char) ++ ['/'] ++ _ = _
        rw [List.nil_append, List.singleton_append, ih]
      · rw [jsSplit_cons_ne '/' c cs hc r rs hrest]
        cases rs with
        | nil =>
          have hr : r = cs := ih
          show (String.mk (c :: r)).data = c :: cs
          rw [hr]
        | cons r2 rs2 =>
          have ih2 : r ++ '/' :: (joinSlash (String.mk r2 :: rs2.map String.mk)).data = cs := by
            rw [List.map_cons, joinSlash_cons_cons, String.data_append,
              String.data_append] at ih
            simpa using ih
          rw [List.map_cons, List.map_cons, joinSlash_cons_cons]
          rw [String.data_append, String.data_append]
          show ((c :: r) ++ ['/'] ++ _ : List Char) = _
          simp only [List.cons_append, List.append_assoc, List.singleton_append,
            List.nil_append]
          rw [ih2]

theorem joinSlash_splitName (s : String) : joinSlash (splitName s) = s := by
  have h := joinSlash_map_mk_jsSplit s.data
  cases s with
  | mk d => simpa [splitName, jsSplitStr, String.ext_iff] using h

theorem splitName_ne_nil (s : String) : splitName s ≠ [] := by
  intro h
  have := jsSplit_ne_nil '/' s.data
  simp only [splitName, jsSplitStr] at h
  exact this (List.map_eq_nil_iff.mp h)

theorem joinSlash_ne_empty (p : String) (ps : List String) (hp : p ≠ "") :
    joinSlash (p :: ps) ≠ "" := by
  cases ps with
  | nil => exact hp
  | cons q qs =>
    rw [joinSlash_cons_cons]
    intro h
    rw [string_eq_empty_iff, String.data_append, String.data_append] at h
    rcases List.append_eq_nil.mp h with ⟨h1, h2⟩
    rcases List.append_eq_nil.mp h1 with ⟨h3, _⟩
    exact hp (string_eq_empty_iff p |>.mpr h3)

end HTMLCraft

namespace HTMLCraft

/-- The canonical segments of a folder key (`[]` for the root key `""`). -/
def segsOf (p : String) : List String :=
  if p = "" then [] else splitName p

/-- The depth of a folder key below the root. -/
def levelOf (p : String) : Nat :=
  (segsOf p).length

/-- The parent key of a folder key. -/
def dirOf (p : String) : String :=
  joinSlash (segsOf p).dropLast

theorem joinSlash_segsOf (p : String) : joinSlash (segsOf p) = p := by
  unfold segsOf
  by_cases h : p = ""
  · rw [if_pos h, h]
    rfl
  · rw [if_neg h, joinSlash_splitName]

theorem segsOf_joinSlash (L : List String) (hgood : goodSegs L) :
    segsOf (joinSlash L) = L := by
  cases L with
  | nil => rfl
  | cons p ps =>
    have hp := hgood p (List.mem_cons_self p ps)
    unfold segsOf
    rw [if_neg (joinSlash_ne_empty p ps hp.1)]
    exact splitName_joinSlash (p :: ps) (by simp) hgood

theorem segsOf_inj {p q : String} (h : segsOf p = segsOf q) : p = q := by
  have hp := joinSlash_segsOf p
  have hq := joinSlash_segsOf q
  rw [← hp, ← hq, h]

theorem goodSegs_of_subset {L M : List String} (h : M ⊆ L) (hgood : goodSegs L) :
    goodSegs M :=
  fun x hx => hgood x (h hx)

theorem goodSegs_splitName (nm : String) (h : GoodName nm) : goodSegs (splitName nm) := by
  intro x hx
  refine ⟨fun hxe => h (hxe ▸ hx), ?_⟩
  simp only [splitName, jsSplitStr, List.mem_map] at hx
  obtain ⟨l, hl, hlx⟩ := hx
  have := jsSplit_sep_not_mem '/' nm.data l hl
  rw [← hlx]
  exact this

theorem joinSlash_append_singleton (p : String) (ps : List String) (x : String) :
    joinSlash ((p :: ps) ++ [x]) = joinSlash (p :: ps) ++ "/" ++ x := by
  induction ps generalizing p with
  | nil => rfl
  | cons q qs ih =>
    have h1 : ((p :: q :: qs) ++ [x] : List String) = p :: q :: (qs ++ [x]) := by simp
    rw [h1, joinSlash_cons_cons]
    have h2 : (q :: (qs ++ [x]) : List String) = (q :: qs) ++ [x] := by simp
    rw [h2, ih q, joinSlash_cons_cons]
    simp [String.append_assoc]

theorem jsJoin_joinSlash (L : List String) (x : String)
    (h : L = [] ∨ joinSlash L ≠ "") :
    jsJoin (joinSlash L) x = joinSlash (L ++ [x]) := by
  cases L with
  | nil => rfl
  | cons p ps =>
    have hne : joinSlash (p :: ps) ≠ "" := by
      cases h with
      | inl h2 => exact absurd h2 (by simp)
      | inr h2 => exact h2
    rw [jsJoin, if_neg hne, joinSlash_append_singleton]

/-- The chain of joined prefixes of a segment list: for `[a, b]` the list
`[a, a/b]`. -/
def chainOfSegs (segs : List String) : List String :=
  (List.range segs.length).map (fun i => joinSlash (segs.take (i + 1)))

theorem mem_chainOfSegs {q : String} {L : List String} :
    q ∈ chainOfSegs L ↔ ∃ i, i < L.length ∧ q = joinSlash (L.take (i + 1)) := by
  simp only [chainOfSegs, List.mem_map, List.mem_range]
  constructor
  · rintro ⟨i, hi, hq⟩
    exact ⟨i, hi, hq.symm⟩
  · rintro ⟨i, hi, hq⟩
    exact ⟨i, hi, hq.symm⟩

theorem chainOfSegs_append_singleton (L : List String) (x : String) :
    chainOfSegs (L ++ [x]) = chainOfSegs L ++ [joinSlash (L ++ [x])] := by
  unfold chainOfSegs
  rw [List.length_append, List.length_singleton, List.range_succ, List.map_append]
  congr 1
  · apply List.map_congr_left
    intro i hi
    rw [List.mem_range] at hi
    rw [List.take_append_of_le_length (by omega)]
  · rw [List.map_singleton, List.take_of_length_le (by simp)]

theorem joinSlash_mem_chainOfSegs (L : List String) (h : L ≠ []) :
    joinSlash L ∈ chainOfSegs L := by
  rw [mem_chainOfSegs]
  refine ⟨L.length - 1, ?_, ?_⟩
  · cases L with
    | nil => exact absurd rfl h
    | cons p ps => simp
  · have hlen : L.length - 1 + 1 = L.length := by
      cases L with
      | nil => exact absurd rfl h
      | cons p ps => simp
    rw [hlen, List.take_length]

theorem dirChain_eq_chainOfSegs (nm : String) :
    dirChain nm = chainOfSegs ((splitName nm).dropLast) := by
  unfold dirChain chainOfSegs
  rw [List.length_dropLast]
  apply List.map_congr_left
  intro i hi
  rw [List.mem_range] at hi
  rw [List.dropLast_eq_take, List.take_take, Nat.min_eq_left (by omega)]

end HTMLCraft

namespace HTMLCraft

theorem take_dropLast {α : Type} (L : List α) (i : Nat) (h : i ≤ L.length - 1) :
    L.dropLast.take i = L.take i := by
  rw [List.dropLast_eq_take, List.take_take, Nat.min_eq_left h]

theorem chain_elem_facts (L : List String) (hgood : goodSegs L) (i : Nat)
    (hi : i < L.length) :
    segsOf (joinSlash (L.take (i + 1))) = L.take (i + 1) ∧
    levelOf (joinSlash (L.take (i + 1))) = i + 1 ∧
    dirOf (joinSlash (L.take (i + 1))) = joinSlash (L.take i) ∧
    joinSlash (L.take (i + 1)) ≠ "" := by
  have hsub : goodSegs (L.take (i + 1)) :=
    goodSegs_of_subset (List.take_subset _ _) hgood
  have hsegs : segsOf (joinSlash (L.take (i + 1))) = L.take (i + 1) :=
    segsOf_joinSlash _ hsub
  have hlen : (L.take (i + 1)).length = i + 1 := by
    rw [List.length_take]
    omega
  refine ⟨hsegs, ?_, ?_, ?_⟩
  · rw [levelOf, hsegs, hlen]
  · rw [dirOf, hsegs, List.dropLast_eq_take, hlen, List.take_take,
      Nat.add_sub_cancel, Nat.min_eq_left (Nat.le_succ i)]
  · intro he
    have : segsOf (joinSlash (L.take (i + 1))) = [] := by
      rw [he]
      rfl
    rw [hsegs] at this
    have := congrArg List.length this
    rw [hlen] at this
    simp at this

/-- `p` is an ancestor-or-self key of `X`: the segments of `p` are an
initial block of the segments of `X`. -/
def ancSegs (p X : String) : Prop :=
  (segsOf X).take (levelOf p) = segsOf p

theorem ancSegs_refl (p : String) : ancSegs p p := by
  rw [ancSegs, levelOf, List.take_length]

theorem ancSegs_empty (X : String) : ancSegs "" X := by
  rw [ancSegs]
  have h : segsOf "" = [] := rfl
  rw [levelOf, h]
  rfl

theorem ancSegs_level_le {p X : String} (h : ancSegs p X) : levelOf p ≤ levelOf X := by
  have := congrArg List.length h
  rw [List.length_take] at this
  unfold levelOf at *
  omega

theorem ancSegs_trans {p q X : String} (h1 : ancSegs p q) (h2 : ancSegs q X) :
    ancSegs p X := by
  have hle := ancSegs_level_le h1
  rw [ancSegs]
  have h3 : List.take (levelOf p) (segsOf X) =
      List.take (levelOf p) (List.take (levelOf q) (segsOf X)) := by
    rw [List.take_take, Nat.min_eq_left hle]
  rw [h3, h2, h1]

theorem ancSegs_eq_of_level_le {p X : String} (h : ancSegs p X)
    (hle : levelOf X ≤ levelOf p) : X = p := by
  rw [ancSegs, List.take_of_length_le hle] at h
  exact segsOf_inj h

theorem parent_facts (q : String) (hq : q ≠ "") (hgood : goodSegs (segsOf q)) :
    segsOf (dirOf q) = (segsOf q).dropLast ∧ levelOf (dirOf q) + 1 = levelOf q ∧
    ancSegs (dirOf q) q := by
  have hsegs : segsOf (dirOf q) = (segsOf q).dropLast := by
    rw [dirOf]
    exact segsOf_joinSlash _ (goodSegs_of_subset (List.dropLast_subset _) hgood)
  have hne : segsOf q ≠ [] := by
    rw [segsOf, if_neg hq]
    exact splitName_ne_nil q
  have hlen : (segsOf q).length ≠ 0 := fun h => hne (List.length_eq_zero.mp h)
  refine ⟨hsegs, ?_, ?_⟩
  · rw [levelOf, levelOf, hsegs, List.length_dropLast]
    omega
  · rw [ancSegs, levelOf, hsegs, List.length_dropLast, ← List.dropLast_eq_take]

theorem mem_dirChain_facts (nm : String) (hg : GoodName nm) (q : String)
    (hq : q ∈ dirChain nm) :
    ∃ i, i + 1 < (splitName nm).length ∧ q = joinSlash ((splitName nm).take (i + 1)) ∧
      segsOf q = (splitName nm).take (i + 1) ∧ levelOf q = i + 1 ∧ q ≠ "" ∧
      dirOf q = joinSlash ((splitName nm).take i) := by
  rw [dirChain_eq_chainOfSegs, mem_chainOfSegs] at hq
  obtain ⟨i, hi, hqe⟩ := hq
  rw [List.length_dropLast] at hi
  have hlen : (splitName nm).length ≠ 0 :=
    fun h => splitName_ne_nil nm (List.length_eq_zero.mp h)
  have htake : (splitName nm).dropLast.take (i + 1) = (splitName nm).take (i + 1) :=
    take_dropLast _ _ (by omega)
  rw [htake] at hqe
  have hfacts := chain_elem_facts (splitName nm) (goodSegs_splitName nm hg) i (by omega)
  exact ⟨i, by omega, hqe, hqe ▸ hfacts.1, hqe ▸ hfacts.2.1, hqe ▸ hfacts.2.2.2,
    hqe ▸ hfacts.2.2.1⟩

theorem mem_dirChain_of (nm : String) (i : Nat) (hi : i + 1 < (splitName nm).length) :
    joinSlash ((splitName nm).take (i + 1)) ∈ dirChain nm := by
  rw [dirChain_eq_chainOfSegs, mem_chainOfSegs]
  refine ⟨i, ?_, ?_⟩
  · rw [List.length_dropLast]
    omega
  · rw [take_dropLast _ _ (by omega)]

theorem dirOf_name_mem (nm : String) (hg : GoodName nm) :
    (1 < (splitName nm).length → dirOf nm ∈ dirChain nm) ∧
    ((splitName nm).length ≤ 1 → dirOf nm = "") := by
  have hne : nm ≠ "" := by
    intro h
    apply hg
    rw [h]
    show "" ∈ (jsSplit '/' "".data).map String.mk
    exact List.mem_singleton.mpr rfl
  have hsegs : segsOf nm = splitName nm := by rw [segsOf, if_neg hne]
  constructor
  · intro hlen
    rw [dirOf, hsegs, List.dropLast_eq_take]
    have h2 : (splitName nm).length - 1 = ((splitName nm).length - 2) + 1 := by omega
    rw [h2]
    exact mem_dirChain_of nm _ (by omega)
  · intro hlen
    rw [dirOf, hsegs, List.dropLast_eq_take]
    have h2 : (splitName nm).length - 1 = 0 := by omega
    rw [h2, List.take_zero]
    rfl

end HTMLCraft

namespace HTMLCraft

/-! ### Folder-map observations and update lemmas -/

/-- The keys of the folder map. -/
def keysOf (m : FolderMap) : List String :=
  m.map Prod.fst

/-- The children of the entry at key `p` (empty when the key is absent). -/
def childrenAt (m : FolderMap) (p : String) : List RawChild :=
  ((fmLookup m p).map FolderEntry.children).getD []

/-- The name of the entry at key `p`. -/
def nameAt (m : FolderMap) (p : String) : String :=
  ((fmLookup m p).map FolderEntry.name).getD ""

theorem fmLookup_cons (k : String) (e : FolderEntry) (m : FolderMap) (x : String) :
    fmLookup ((k, e) :: m) x = if k = x then some e else fmLookup m x := by
  rw [fmLookup, List.find?_cons]
  by_cases h : k = x
  · simp [h]
  · have hb : (((k, e) : String × FolderEntry).1 == x) = false := by simp [h]
    rw [hb, if_neg h]
    rfl

theorem fmPush_cons (k : String) (e : FolderEntry) (m : FolderMap) (p : String)
    (c : RawChild) :
    fmPush ((k, e) :: m) p c =
      (if k = p then (k, ⟨e.name, e.children ++ [c]⟩) else (k, e)) :: fmPush m p c := by
  by_cases h : k = p
  · simp [fmPush, h]
  · simp [fmPush, h]

theorem fmLookup_isSome_iff (m : FolderMap) (p : String) :
    (fmLookup m p).isSome ↔ p ∈ keysOf m := by
  rw [fmLookup, Option.isSome_map', List.find?_isSome]
  unfold keysOf
  constructor
  · rintro ⟨e, he, hp⟩
    rw [beq_iff_eq] at hp
    exact hp ▸ List.mem_map_of_mem Prod.fst he
  · intro hp
    obtain ⟨e, he, hp2⟩ := List.mem_map.mp hp
    exact ⟨e, he, by simp [hp2]⟩

theorem fmLookup_eq_none_iff (m : FolderMap) (p : String) :
    fmLookup m p = none ↔ p ∉ keysOf m := by
  rw [← fmLookup_isSome_iff, Option.not_isSome_iff_eq_none]

theorem fmLookup_append_sing (m : FolderMap) (k : String) (e : FolderEntry) (p : String) :
    fmLookup (m ++ [(k, e)]) p =
      if (fmLookup m p).isSome then fmLookup m p
      else if p = k then some e else none := by
  induction m with
  | nil =>
    rw [List.nil_append, fmLookup_cons]
    by_cases h : k = p
    · simp [fmLookup, h]
    · have h2 : ¬ p = k := fun h3 => h h3.symm
      simp [fmLookup, h, h2]
  | cons a m ih =>
    obtain ⟨ka, ea⟩ := a
    rw [List.cons_append, fmLookup_cons, fmLookup_cons]
    by_cases h : ka = p
    · simp [h]
    · rw [if_neg h, if_neg h, ih]

theorem keysOf_append_sing (m : FolderMap) (k : String) (e : FolderEntry) :
    keysOf (m ++ [(k, e)]) = keysOf m ++ [k] := by
  simp [keysOf]

theorem keysOf_fmPush (m : FolderMap) (p : String) (c : RawChild) :
    keysOf (fmPush m p c) = keysOf m := by
  unfold keysOf fmPush
  rw [List.map_map]
  apply List.map_congr_left
  intro e _
  by_cases he : e.1 = p
  · simp [he]
  · simp [he]

theorem fmLookup_fmPush (m : FolderMap) (p : String) (c : RawChild) (x : String) :
    fmLookup (fmPush m p c) x =
      if x = p then
        (fmLookup m p).map (fun en => ⟨en.name, en.children ++ [c]⟩)
      else fmLookup m x := by
  induction m with
  | nil =>
    by_cases hx : x = p
    · simp [fmPush, fmLookup, hx]
    · simp [fmPush, fmLookup, hx]
  | cons a m ih =>
    obtain ⟨k, en⟩ := a
    rw [fmPush_cons]
    by_cases hk : k = p
    · rw [if_pos hk]
      by_cases hx : x = p
      · have h1 : fmLookup ((k, ⟨en.name, en.children ++ [c]⟩) :: fmPush m p c) x =
            some ⟨en.name, en.children ++ [c]⟩ := by
          rw [fmLookup_cons, if_pos (hk.trans hx.symm)]
        have h2 : fmLookup ((k, en) :: m) p = some en := by
          rw [fmLookup_cons, if_pos hk]
        rw [h1, if_pos hx, h2]
        rfl
      · have hkx : ¬ k = x := fun h => hx (by rw [← h, hk])
        have h1 : fmLookup ((k, ⟨en.name, en.children ++ [c]⟩) :: fmPush m p c) x =
            fmLookup (fmPush m p c) x := by
          rw [fmLookup_cons, if_neg hkx]
        have h2 : fmLookup ((k, en) :: m) x = fmLookup m x := by
          rw [fmLookup_cons, if_neg hkx]
        rw [h1, h2, ih, if_neg hx, if_neg hx]
    · rw [if_neg hk]
      by_cases hkx : k = x
      · have hxp : ¬ x = p := fun h => hk (by rw [hkx, h])
        have h1 : fmLookup ((k, en) :: fmPush m p c) x = some en := by
          rw [fmLookup_cons, if_pos hkx]
        have h2 : fmLookup ((k, en) :: m) x = some en := by
          rw [fmLookup_cons, if_pos hkx]
        rw [h1, if_neg hxp, h2]
      · have h1 : fmLookup ((k, en) :: fmPush m p c) x = fmLookup (fmPush m p c) x := by
          rw [fmLookup_cons, if_neg hkx]
        have h2 : fmLookup ((k, en) :: m) x = fmLookup m x := by
          rw [fmLookup_cons, if_neg hkx]
        have h3 : fmLookup ((k, en) :: m) p = fmLookup m p := by
          rw [fmLookup_cons, if_neg hk]
        rw [h1, h2, h3, ih]

theorem childrenAt_fmPush (m : FolderMap) (p : String) (c : RawChild) (x : String) :
    childrenAt (fmPush m p c) x =
      if x = p ∧ p ∈ keysOf m then childrenAt m x ++ [c] else childrenAt m x := by
  unfold childrenAt
  rw [fmLookup_fmPush]
  by_cases hx : x = p
  · by_cases hk : p ∈ keysOf m
    · obtain ⟨e, he⟩ := Option.isSome_iff_exists.mp ((fmLookup_isSome_iff m p).mpr hk)
      rw [if_pos hx, he, if_pos ⟨hx, hk⟩, hx, he]
      rfl
    · have hnone : fmLookup m p = none := (fmLookup_eq_none_iff m p).mpr hk
      rw [if_pos hx, hnone, if_neg (fun h => hk h.2), hx, hnone]
      rfl
  · rw [if_neg hx, if_neg (fun h => hx h.1)]

theorem childrenAt_append_sing (m : FolderMap) (k : String) (e : FolderEntry)
    (x : String) :
    childrenAt (m ++ [(k, e)]) x =
      if x ∈ keysOf m then childrenAt m x
      else if x = k then e.children else [] := by
  unfold childrenAt
  rw [fmLookup_append_sing]
  by_cases hk : x ∈ keysOf m
  · rw [if_pos ((fmLookup_isSome_iff m x).mpr hk), if_pos hk]
  · have hnone : fmLookup m x = none := (fmLookup_eq_none_iff m x).mpr hk
    rw [hnone]
    simp only [Option.isSome_none, Bool.false_eq_true, if_false, if_neg hk]
    by_cases hx : x = k
    · simp [hx]
    · simp [hx]

theorem childrenAt_not_mem (m : FolderMap) (x : String) (hx : x ∉ keysOf m) :
    childrenAt m x = [] := by
  unfold childrenAt
  rw [(fmLookup_eq_none_iff m x).mpr hx]
  rfl

theorem count_eq_sum_map_indicator {α : Type} [DecidableEq α] (l : List α) (a : α) :
    (l.map (fun c => if c = a then 1 else 0)).sum = l.count a := by
  induction l with
  | nil => rfl
  | cons b bs ih =>
    rw [List.map_cons, List.sum_cons, ih, List.count_cons]
    by_cases h : b = a
    · have hb : (b == a) = true := by simp [h]
      rw [if_pos h, hb, if_pos rfl]
      omega
    · have hb : (b == a) = false := by simp [h]
      rw [if_neg h, hb, if_neg (by simp)]
      omega

theorem flatten_map_eq_single {α β : Type} [DecidableEq α] (l : List α) (a : α)
    (v : List β) (F : α → List β) (hF : ∀ c ∈ l, F c = if c = a then v else [])
    (hcount : l.count a = 1) : (l.map F).flatten = v := by
  induction l with
  | nil => simp at hcount
  | cons b bs ih =>
    rw [List.count_cons] at hcount
    rw [List.map_cons, List.flatten_cons]
    by_cases hb : b = a
    · have hbt : (b == a) = true := by simp [hb]
      rw [hbt, if_pos rfl] at hcount
      have hz : bs.count a = 0 := by omega
      have hnil : (bs.map F).flatten = [] := by
        rw [List.flatten_eq_nil_iff]
        intro x hx
        obtain ⟨c, hc, hcx⟩ := List.mem_map.mp hx
        have hca : c ≠ a := by
          intro h
          rw [List.count_eq_zero] at hz
          exact hz (h ▸ hc)
        rw [hF c (List.mem_cons_of_mem b hc), if_neg hca] at hcx
        exact hcx.symm
      rw [hF b (List.mem_cons_self b bs), if_pos hb, hnil, List.append_nil]
    · have hbf : (b == a) = false := by simp [hb]
      rw [hbf, if_neg (by simp)] at hcount
      rw [hF b (List.mem_cons_self b bs), if_neg hb, List.nil_append]
      exact ih (fun c hc => hF c (List.mem_cons_of_mem b hc)) (by omega)

theorem flatten_map_eq_nil {α β : Type} (l : List α) (F : α → List β)
    (hF : ∀ c ∈ l, F c = []) : (l.map F).flatten = [] := by
  rw [List.flatten_eq_nil_iff]
  intro x hx
  obtain ⟨c, hc, hcx⟩ := List.mem_map.mp hx
  rw [hF c hc] at hcx
  exact hcx.symm

end HTMLCraft

namespace HTMLCraft

/-! ### The first-pass invariant

After processing a set of good-named files, the folder map holds the root
plus exactly one entry per distinct proper directory part of a processed
name; every non-root entry is referenced exactly once, from its parent
entry, and every processed file occurs as exactly one leaf child, in the
entry of its directory. -/

/-- `q` is a proper directory part of some processed file. -/
def inChains (files : List CFile) (q : String) : Prop :=
  ∃ f ∈ files, q ∈ dirChain f.name

/-- Some processed file has this name and content. -/
def leafMatches (files : List CFile) (pth ct : String) : Prop :=
  ∃ f ∈ files, f.name = pth ∧ f.content = ct

instance inChainsDecidable (files : List CFile) (q : String) :
    Decidable (inChains files q) := by
  unfold inChains
  infer_instance

instance leafMatchesDecidable (files : List CFile) (pth ct : String) :
    Decidable (leafMatches files pth ct) := by
  unfold leafMatches
  infer_instance

/-- The invariant, parametrised by the folder chain `extra` already created
for the file currently being processed. -/
def MapInvX (files : List CFile) (extra : List String) (m : FolderMap) : Prop :=
  (keysOf m).Nodup ∧
  (∀ q, q ∈ keysOf m ↔ (q = "" ∨ inChains files q ∨ q ∈ extra)) ∧
  (∀ p q, (childrenAt m p).count (.folderRef q) =
    if p ∈ keysOf m ∧ (inChains files q ∨ q ∈ extra) ∧ dirOf q = p then 1 else 0) ∧
  (∀ p n pth ct, (childrenAt m p).count (.fileLeaf n pth ct) =
    if p ∈ keysOf m ∧ leafMatches files pth ct ∧ n = baseOf pth ∧ p = dirOf pth
    then 1 else 0)

/-- The invariant between two files. -/
def MapInv (files : List CFile) (m : FolderMap) : Prop :=
  MapInvX files [] m

theorem mapInv_init : MapInv [] [("", ⟨"root", []⟩)] := by
  have hch : ∀ p, childrenAt [("", ⟨"root", []⟩)] p = [] := by
    intro p
    unfold childrenAt
    rw [fmLookup_cons]
    by_cases h : "" = p
    · simp [h]
    · simp [h, fmLookup]
  refine ⟨by simp [keysOf], ?_, ?_, ?_⟩
  · intro q
    simp [keysOf, inChains, eq_comm]
  · intro p q
    rw [hch]
    simp [inChains]
  · intro p n pth ct
    rw [hch]
    simp [leafMatches]

theorem count_concat {α : Type} [DecidableEq α] (l : List α) (y x : α) :
    (l ++ [y]).count x = l.count x + (if y = x then 1 else 0) := by
  rw [List.count_append]
  congr 1
  rw [show ([y] : List α) = y :: [] from rfl, List.count_cons, List.count_nil]
  by_cases h : y = x
  · simp [h]
  · simp [h]

theorem mem_chainOfSegs_facts (done : List String) (hdone : goodSegs done)
    (q : String) (hq : q ∈ chainOfSegs done) :
    ∃ i, i < done.length ∧ q = joinSlash (done.take (i + 1)) ∧
      segsOf q = done.take (i + 1) ∧ levelOf q = i + 1 ∧ q ≠ "" ∧
      dirOf q = joinSlash (done.take i) := by
  rw [mem_chainOfSegs] at hq
  obtain ⟨i, hi, hqe⟩ := hq
  have hfacts := chain_elem_facts done hdone i hi
  exact ⟨i, hi, hqe, hqe ▸ hfacts.1, hqe ▸ hfacts.2.1, hqe ▸ hfacts.2.2.2,
    hqe ▸ hfacts.2.2.1⟩

/-- The parent of a directory part known to the invariant is again the root
or a directory part known to the invariant. -/
theorem dirOf_closed (fs : List CFile) (hGoodAll : ∀ g ∈ fs, GoodName g.name)
    (done : List String) (hdone : goodSegs done) (q : String)
    (h : inChains fs q ∨ q ∈ chainOfSegs done) :
    dirOf q = "" ∨ inChains fs (dirOf q) ∨ dirOf q ∈ chainOfSegs done := by
  cases h with
  | inl h =>
    obtain ⟨g, hg, hq⟩ := h
    obtain ⟨i, hi, _, _, _, _, hdir⟩ := mem_dirChain_facts g.name (hGoodAll g hg) q hq
    cases i with
    | zero =>
      left
      rw [hdir, List.take_zero]
      rfl
    | succ j =>
      right
      left
      exact ⟨g, hg, hdir ▸ mem_dirChain_of g.name j (by omega)⟩
  | inr h =>
    obtain ⟨i, hi, _, _, _, _, hdir⟩ := mem_chainOfSegs_facts done hdone q h
    cases i with
    | zero =>
      left
      rw [hdir, List.take_zero]
      rfl
    | succ j =>
      right
      right
      rw [hdir, mem_chainOfSegs]
      exact ⟨j, by omega, rfl⟩

/-- The directory of a processed file name is the root or a directory part
of that name. -/
theorem dirOf_name_closed (nm : String) (hg : GoodName nm) :
    dirOf nm = "" ∨ dirOf nm ∈ dirChain nm := by
  have h := dirOf_name_mem nm hg
  by_cases hlen : 1 < (splitName nm).length
  · right
    exact h.1 hlen
  · left
    exact h.2 (by omega)

end HTMLCraft

namespace HTMLCraft

/-- Revisiting an already-created folder leaves the invariant intact. -/
theorem mapInvX_absorb (fs : List CFile) (done : List String) (part cp : String)
    (m : FolderMap)
    (hinv : MapInvX fs (chainOfSegs done) m)
    (hchain2 : chainOfSegs (done ++ [part]) = chainOfSegs done ++ [cp])
    (hcp_ne : cp ≠ "")
    (hmem : cp ∈ keysOf m) :
    MapInvX fs (chainOfSegs (done ++ [part])) m := by
  obtain ⟨hnodup, hk2, hc1, hc2⟩ := hinv
  have habsorb : ∀ q, (inChains fs q ∨ q ∈ chainOfSegs (done ++ [part])) ↔
      (inChains fs q ∨ q ∈ chainOfSegs done) := by
    intro q
    rw [hchain2]
    constructor
    · rintro (h | h)
      · exact Or.inl h
      · rcases List.mem_append.mp h with h2 | h2
        · exact Or.inr h2
        · rw [List.mem_singleton] at h2
          subst h2
          rcases (hk2 q).mp hmem with h3 | h3 | h3
          · exact absurd h3 hcp_ne
          · exact Or.inl h3
          · exact Or.inr h3
    · rintro (h | h)
      · exact Or.inl h
      · exact Or.inr (List.mem_append_left _ h)
  refine ⟨hnodup, ?_, ?_, hc2⟩
  · intro q
    rw [hk2 q]
    exact (or_congr Iff.rfl (habsorb q)).symm
  · intro p q
    rw [hc1 p q]
    exact if_congr (and_congr Iff.rfl (and_congr (habsorb q).symm Iff.rfl)) rfl rfl

end HTMLCraft

namespace HTMLCraft

/-- Creating a new folder entry and linking it from its parent preserves
the invariant with the new folder appended to the chain. -/
theorem mapInvX_insert (fs : List CFile) (hGoodAll : ∀ g ∈ fs, GoodName g.name)
    (done : List String) (hdone : goodSegs done) (part cp : String)
    (m : FolderMap)
    (hinv : MapInvX fs (chainOfSegs done) m)
    (hchain2 : chainOfSegs (done ++ [part]) = chainOfSegs done ++ [cp])
    (hcp_ne : cp ≠ "")
    (hdir_cp : dirOf cp = joinSlash done)
    (hpar_mem : joinSlash done ∈ keysOf m)
    (hnotmem : cp ∉ keysOf m) :
    MapInvX fs (chainOfSegs (done ++ [part]))
      (fmPush (m ++ [(cp, ⟨part, []⟩)]) (joinSlash done) (.folderRef cp)) := by
  obtain ⟨hnodup, hk2, hc1, hc2⟩ := hinv
  have hpar_ne_cp : joinSlash done ≠ cp := fun h => hnotmem (h ▸ hpar_mem)
  have hkeys3 : keysOf (m ++ [(cp, ⟨part, []⟩)]) = keysOf m ++ [cp] :=
    keysOf_append_sing m cp _
  have hkeys2 : keysOf (fmPush (m ++ [(cp, ⟨part, []⟩)]) (joinSlash done)
      (.folderRef cp)) = keysOf m ++ [cp] := by
    rw [keysOf_fmPush, hkeys3]
  have hpar_mem3 : joinSlash done ∈ keysOf (m ++ [(cp, ⟨part, []⟩)]) := by
    rw [hkeys3]
    exact List.mem_append_left _ hpar_mem
  have hch_par : childrenAt (fmPush (m ++ [(cp, ⟨part, []⟩)]) (joinSlash done)
      (.folderRef cp)) (joinSlash done) = childrenAt m (joinSlash done)
        ++ [.folderRef cp] := by
    rw [childrenAt_fmPush, if_pos ⟨rfl, hpar_mem3⟩, childrenAt_append_sing,
      if_pos hpar_mem]
  have hch_other : ∀ x, x ≠ joinSlash done →
      childrenAt (fmPush (m ++ [(cp, ⟨part, []⟩)]) (joinSlash done)
        (.folderRef cp)) x = (if x ∈ keysOf m then childrenAt m x else []) := by
    intro x hx
    rw [childrenAt_fmPush, if_neg (fun h => hx h.1), childrenAt_append_sing]
    by_cases hxk : x ∈ keysOf m
    · rw [if_pos hxk, if_pos hxk]
    · rw [if_neg hxk, if_neg hxk]
      by_cases hxcp : x = cp
      · rw [if_pos hxcp]
      · rw [if_neg hxcp]
  have hmem_of : ∀ q, (inChains fs q ∨ q ∈ chainOfSegs done) → q ∈ keysOf m := by
    intro q h
    exact (hk2 q).mpr (Or.inr h)
  have hchain2mem : ∀ q, q ∈ chainOfSegs (done ++ [part]) ↔
      (q ∈ chainOfSegs done ∨ q = cp) := by
    intro q
    rw [hchain2, List.mem_append, List.mem_singleton]
  refine ⟨?_, ?_, ?_, ?_⟩
  · rw [hkeys2, List.nodup_append]
    exact ⟨hnodup, List.nodup_singleton cp, disjoint_singleton_of_not_mem hnotmem⟩
  · intro q
    rw [hkeys2, List.mem_append, List.mem_singleton, hk2 q, hchain2mem q]
    constructor
    · rintro ((h | h | h) | h)
      · exact Or.inl h
      · exact Or.inr (Or.inl h)
      · exact Or.inr (Or.inr (Or.inl h))
      · exact Or.inr (Or.inr (Or.inr h))
    · rintro (h | h | h | h)
      · exact Or.inl (Or.inl h)
      · exact Or.inl (Or.inr (Or.inl h))
      · exact Or.inl (Or.inr (Or.inr h))
      · exact Or.inr h
  · intro p q
    by_cases hppar : p = joinSlash done
    · rw [hppar]
      rw [hch_par, count_concat]
      by_cases hqcp : q = cp
      · subst hqcp
        have hold : (childrenAt m (joinSlash done)).count (.folderRef q) = 0 := by
          rw [hc1 (joinSlash done) q]
          rw [if_neg]
          rintro ⟨_, hin, _⟩
          exact hnotmem (hmem_of q hin)
        rw [hold, if_pos rfl]
        rw [if_pos ⟨by rw [hkeys2]; exact List.mem_append_left _ hpar_mem,
          Or.inr ((hchain2mem q).mpr (Or.inr rfl)), hdir_cp⟩]
      · have hne : RawChild.folderRef cp ≠ RawChild.folderRef q := by
          intro h
          exact hqcp (RawChild.folderRef.injEq cp q ▸ h).symm
        rw [if_neg hne, Nat.add_zero, hc1 (joinSlash done) q]
        have hcond : (joinSlash done ∈ keysOf m ∧
            (inChains fs q ∨ q ∈ chainOfSegs done) ∧
            dirOf q = joinSlash done) ↔ (joinSlash done ∈ keysOf
              (fmPush (m ++ [(cp, ⟨part, []⟩)]) (joinSlash done)
              (.folderRef cp)) ∧ (inChains fs q ∨
                q ∈ chainOfSegs (done ++ [part])) ∧
                dirOf q = joinSlash done) := by
          constructor
          · rintro ⟨h1, h2, h3⟩
            refine ⟨by rw [hkeys2]; exact List.mem_append_left _ h1, ?_, h3⟩
            rcases h2 with h | h
            · exact Or.inl h
            · exact Or.inr ((hchain2mem q).mpr (Or.inl h))
          · rintro ⟨h1, h2, h3⟩
            refine ⟨hpar_mem, ?_, h3⟩
            rcases h2 with h | h
            · exact Or.inl h
            · rcases (hchain2mem q).mp h with h4 | h4
              · exact Or.inr h4
              · exact absurd h4 hqcp
        rw [if_congr hcond rfl rfl]
    · rw [hch_other p hppar]
      by_cases hpk : p ∈ keysOf m
      · rw [if_pos hpk, hc1 p q]
        by_cases hqcp : q = cp
        · subst hqcp
          rw [if_neg, if_neg]
          · rintro ⟨_, _, hdir⟩
            exact hppar (hdir.symm.trans hdir_cp)
          · rintro ⟨_, hin, _⟩
            exact hnotmem (hmem_of q hin)
        · have hcond : (p ∈ keysOf m ∧ (inChains fs q ∨ q ∈ chainOfSegs done) ∧
              dirOf q = p) ↔ (p ∈ keysOf (fmPush (m ++ [(cp, ⟨part, []⟩)])
                (joinSlash done) (.folderRef cp)) ∧ (inChains fs q ∨
                  q ∈ chainOfSegs (done ++ [part])) ∧ dirOf q = p) := by
            constructor
            · rintro ⟨h1, h2, h3⟩
              refine ⟨by rw [hkeys2]; exact List.mem_append_left _ h1, ?_, h3⟩
              rcases h2 with h | h
              · exact Or.inl h
              · exact Or.inr ((hchain2mem q).mpr (Or.inl h))
            · rintro ⟨h1, h2, h3⟩
              refine ⟨hpk, ?_, h3⟩
              rcases h2 with h | h
              · exact Or.inl h
              · rcases (hchain2mem q).mp h with h4 | h4
                · exact Or.inr h4
                · exact absurd h4 hqcp
          rw [if_congr hcond rfl rfl]
      · rw [if_neg hpk]
        by_cases hpcp : p = cp
        · subst hpcp
          rw [List.count_nil, if_neg]
          rintro ⟨_, hin, hdir⟩
          rcases hin with h | h
          · rcases dirOf_closed fs hGoodAll done hdone q (Or.inl h) with h2 | h2 | h2
            · exact hcp_ne (hdir ▸ h2)
            · exact hnotmem (hdir ▸ hmem_of _ (Or.inl h2))
            · exact hnotmem (hdir ▸ hmem_of _ (Or.inr h2))
          · rcases (hchain2mem q).mp h with h2 | h2
            · rcases dirOf_closed fs hGoodAll done hdone q (Or.inr h2) with h3 | h3 | h3
              · exact hcp_ne (hdir ▸ h3)
              · exact hnotmem (hdir ▸ hmem_of _ (Or.inl h3))
              · exact hnotmem (hdir ▸ hmem_of _ (Or.inr h3))
            · subst h2
              exact hpar_ne_cp (hdir_cp ▸ hdir)
        · rw [List.count_nil, if_neg]
          rintro ⟨h1, _, _⟩
          rw [hkeys2, List.mem_append, List.mem_singleton] at h1
          rcases h1 with h | h
          · exact hpk h
          · exact hpcp h
  · intro p n pth ct
    by_cases hppar : p = joinSlash done
    · rw [hppar]
      rw [hch_par, count_concat, if_neg (by intro h; exact RawChild.noConfusion h),
        Nat.add_zero, hc2 (joinSlash done) n pth ct]
      have hcond : (joinSlash done ∈ keysOf m ∧ leafMatches fs pth ct ∧
          n = baseOf pth ∧ joinSlash done = dirOf pth) ↔
          (joinSlash done ∈ keysOf (fmPush (m ++ [(cp, ⟨part, []⟩)])
            (joinSlash done) (.folderRef cp)) ∧ leafMatches fs pth ct ∧
            n = baseOf pth ∧ joinSlash done = dirOf pth) := by
        constructor
        · rintro ⟨h1, h2⟩
          exact ⟨by rw [hkeys2]; exact List.mem_append_left _ h1, h2⟩
        · rintro ⟨h1, h2⟩
          exact ⟨hpar_mem, h2⟩
      rw [if_congr hcond rfl rfl]
    · rw [hch_other p hppar]
      by_cases hpk : p ∈ keysOf m
      · rw [if_pos hpk, hc2 p n pth ct]
        have hcond : (p ∈ keysOf m ∧ leafMatches fs pth ct ∧ n = baseOf pth ∧
            p = dirOf pth) ↔ (p ∈ keysOf (fmPush (m ++ [(cp, ⟨part, []⟩)])
              (joinSlash done) (.folderRef cp)) ∧ leafMatches fs pth ct ∧
                n = baseOf pth ∧ p = dirOf pth) := by
          constructor
          · rintro ⟨h1, h2⟩
            exact ⟨by rw [hkeys2]; exact List.mem_append_left _ h1, h2⟩
          · rintro ⟨h1, h2⟩
            exact ⟨hpk, h2⟩
        rw [if_congr hcond rfl rfl]
      · rw [if_neg hpk]
        by_cases hpcp : p = cp
        · subst hpcp
          rw [List.count_nil, if_neg]
          rintro ⟨_, hlm, _, hdir⟩
          obtain ⟨g, hg, hgname, _⟩ := hlm
          rcases dirOf_name_closed pth (hgname ▸ hGoodAll g hg) with h2 | h2
          · exact hcp_ne (hdir.trans h2)
          · refine hnotmem ?_
            rw [hdir]
            refine hmem_of _ (Or.inl ⟨g, hg, ?_⟩)
            rw [hgname]
            exact h2
        · rw [List.count_nil, if_neg]
          rintro ⟨h1, _⟩
          rw [hkeys2, List.mem_append, List.mem_singleton] at h1
          rcases h1 with h | h
          · exact hpk h
          · exact hpcp h

end HTMLCraft

namespace HTMLCraft

theorem addFolders_inv (fs : List CFile) (hGoodAll : ∀ g ∈ fs, GoodName g.name)
    (L : List String) (hL : goodSegs L) :
    ∀ (rest done : List String) (m : FolderMap), L = done ++ rest →
      MapInvX fs (chainOfSegs done) m →
      MapInvX fs (chainOfSegs L) (addFolders m (joinSlash done) rest) := by
  intro rest
  induction rest with
  | nil =>
    intro done m hsplit hinv
    rw [hsplit, List.append_nil]
    exact hinv
  | cons part rest2 ih =>
    intro done m hsplit hinv
    have hpartL : part ∈ L := by
      rw [hsplit]
      exact List.mem_append_right done (List.mem_cons_self part rest2)
    have hpart := hL part hpartL
    have hdone : goodSegs done := by
      intro x hx
      exact hL x (by rw [hsplit]; exact List.mem_append_left _ hx)
    have hdone2 : goodSegs (done ++ [part]) := by
      intro x hx
      rcases List.mem_append.mp hx with h | h
      · exact hdone x h
      · rw [List.mem_singleton] at h
        exact h ▸ hpart
    have hcur : jsJoin (joinSlash done) part = joinSlash (done ++ [part]) := by
      apply jsJoin_joinSlash
      cases done with
      | nil => exact Or.inl rfl
      | cons d ds =>
        exact Or.inr (joinSlash_ne_empty d ds (hdone d (List.mem_cons_self d ds)).1)
    have hsegs_cp : segsOf (joinSlash (done ++ [part])) = done ++ [part] :=
      segsOf_joinSlash _ hdone2
    have hcp_ne : joinSlash (done ++ [part]) ≠ "" := by
      intro h
      have h2 : segsOf (joinSlash (done ++ [part])) = [] := by rw [h]; rfl
      rw [hsegs_cp] at h2
      simp at h2
    have hdir_cp : dirOf (joinSlash (done ++ [part])) = joinSlash done := by
      rw [dirOf, hsegs_cp, List.dropLast_concat]
    have hchain2 : chainOfSegs (done ++ [part]) =
        chainOfSegs done ++ [joinSlash (done ++ [part])] :=
      chainOfSegs_append_singleton done part
    have hpar_mem : joinSlash done ∈ keysOf m := by
      cases done with
      | nil => exact (hinv.2.1 (joinSlash [])).mpr (Or.inl rfl)
      | cons d ds =>
        exact (hinv.2.1 _).mpr (Or.inr (Or.inr (joinSlash_mem_chainOfSegs _ (by simp))))
    have hsplit2 : L = (done ++ [part]) ++ rest2 := by
      rw [hsplit, List.append_assoc, List.singleton_append]
    have hstep : addFolders m (joinSlash done) (part :: rest2) =
        addFolders
          (if (fmLookup m (jsJoin (joinSlash done) part)).isSome then m
           else
             if (fmLookup (m ++ [(jsJoin (joinSlash done) part,
                 ⟨part, []⟩)]) (joinSlash done)).isSome then
               fmPush (m ++ [(jsJoin (joinSlash done) part, ⟨part, []⟩)])
                 (joinSlash done) (.folderRef (jsJoin (joinSlash done) part))
             else m ++ [(jsJoin (joinSlash done) part, ⟨part, []⟩)])
          (jsJoin (joinSlash done) part) rest2 := rfl
    rw [hstep, hcur]
    by_cases hlook : (fmLookup m (joinSlash (done ++ [part]))).isSome
    · rw [if_pos hlook]
      exact ih (done ++ [part]) m hsplit2
        (mapInvX_absorb fs done part (joinSlash (done ++ [part])) m hinv hchain2
          hcp_ne ((fmLookup_isSome_iff m _).mp hlook))
    · rw [if_neg hlook]
      have hnotmem : joinSlash (done ++ [part]) ∉ keysOf m := by
        intro h
        exact hlook ((fmLookup_isSome_iff m _).mpr h)
      have hpar3 : (fmLookup (m ++ [(joinSlash (done ++ [part]), ⟨part, []⟩)])
          (joinSlash done)).isSome := by
        rw [fmLookup_isSome_iff, keysOf_append_sing]
        exact List.mem_append_left _ hpar_mem
      rw [if_pos hpar3]
      exact ih (done ++ [part]) _ hsplit2
        (mapInvX_insert fs hGoodAll done hdone part (joinSlash (done ++ [part])) m
          hinv hchain2 hcp_ne hdir_cp hpar_mem hnotmem)

end HTMLCraft

namespace HTMLCraft

theorem good_name_ne_empty (nm : String) (h : GoodName nm) : nm ≠ "" := by
  intro hnm
  apply h
  rw [hnm]
  show "" ∈ (jsSplit '/' "".data).map String.mk
  exact List.mem_singleton.mpr rfl

theorem inChains_append (fs : List CFile) (f : CFile) (q : String) :
    inChains (fs ++ [f]) q ↔ (inChains fs q ∨ q ∈ dirChain f.name) := by
  unfold inChains
  constructor
  · rintro ⟨g, hg, hq⟩
    rcases List.mem_append.mp hg with h | h
    · exact Or.inl ⟨g, h, hq⟩
    · rw [List.mem_singleton] at h
      exact Or.inr (h ▸ hq)
  · rintro (⟨g, hg, hq⟩ | hq)
    · exact ⟨g, List.mem_append_left _ hg, hq⟩
    · exact ⟨f, List.mem_append_right _ (List.mem_singleton.mpr rfl), hq⟩

theorem leafMatches_append (fs : List CFile) (f : CFile) (pth ct : String) :
    leafMatches (fs ++ [f]) pth ct ↔
      (leafMatches fs pth ct ∨ (pth = f.name ∧ ct = f.content)) := by
  unfold leafMatches
  constructor
  · rintro ⟨g, hg, hq⟩
    rcases List.mem_append.mp hg with h | h
    · exact Or.inl ⟨g, h, hq⟩
    · rw [List.mem_singleton] at h
      subst h
      exact Or.inr ⟨hq.1.symm, hq.2.symm⟩
  · rintro (⟨g, hg, hq⟩ | ⟨h1, h2⟩)
    · exact ⟨g, List.mem_append_left _ hg, hq⟩
    · exact ⟨f, List.mem_append_right _ (List.mem_singleton.mpr rfl), h1.symm, h2.symm⟩

theorem parentPath_eq_dirOf (nm : String) (hne : nm ≠ "") :
    (if 1 < (splitName nm).length then joinSlash (splitName nm).dropLast else "") =
      dirOf nm := by
  have hsegs : segsOf nm = splitName nm := by rw [segsOf, if_neg hne]
  rw [dirOf, hsegs]
  by_cases hlen : 1 < (splitName nm).length
  · rw [if_pos hlen]
  · rw [if_neg hlen]
    have h0 : (splitName nm).length ≠ 0 :=
      fun h => splitName_ne_nil nm (List.length_eq_zero.mp h)
    rw [List.dropLast_eq_take, show (splitName nm).length - 1 = 0 by omega,
      List.take_zero]
    rfl

theorem processFile_inv (fs : List CFile) (f : CFile) (m : FolderMap)
    (hGoodAll : ∀ g ∈ fs, GoodName g.name) (hgood : GoodName f.name)
    (hfresh : ∀ g ∈ fs, g.name ≠ f.name)
    (hinv : MapInv fs m) :
    MapInv (fs ++ [f]) (processFile m f) := by
  have hname_ne : f.name ≠ "" := good_name_ne_empty f.name hgood
  have hgoodparts : goodSegs (splitName f.name) := goodSegs_splitName f.name hgood
  have hdropgood : goodSegs (splitName f.name).dropLast :=
    goodSegs_of_subset (List.dropLast_subset _) hgoodparts
  have hm1 := addFolders_inv fs hGoodAll (splitName f.name).dropLast hdropgood
    (splitName f.name).dropLast [] m rfl (by exact hinv)
  have hchain_eq : chainOfSegs (splitName f.name).dropLast = dirChain f.name :=
    (dirChain_eq_chainOfSegs f.name).symm
  rw [hchain_eq] at hm1
  obtain ⟨hnodup, hk2, hc1, hc2⟩ := hm1
  have hpp_eq : (if 1 < (splitName f.name).length then
      joinSlash (splitName f.name).dropLast else "") = dirOf f.name :=
    parentPath_eq_dirOf f.name hname_ne
  have hpar_mem : dirOf f.name ∈
      keysOf (addFolders m (joinSlash []) (splitName f.name).dropLast) := by
    rcases dirOf_name_closed f.name hgood with h | h
    · exact (hk2 _).mpr (Or.inl h)
    · exact (hk2 _).mpr (Or.inr (Or.inr h))
  have hlook : (fmLookup (addFolders m (joinSlash []) (splitName f.name).dropLast)
      (if 1 < (splitName f.name).length then
        joinSlash (splitName f.name).dropLast else "")).isSome := by
    rw [hpp_eq, fmLookup_isSome_iff]
    exact hpar_mem
  have hstep : processFile m f =
      fmPush (addFolders m (joinSlash []) (splitName f.name).dropLast)
        (if 1 < (splitName f.name).length then
          joinSlash (splitName f.name).dropLast else "")
        (.fileLeaf ((splitName f.name).getLastD "") f.name f.content) := by
    show (if (fmLookup (addFolders m (joinSlash []) (splitName f.name).dropLast)
        (if 1 < (splitName f.name).length then
          joinSlash (splitName f.name).dropLast else "")).isSome then _ else _) = _
    rw [if_pos hlook]
    rfl
  have hbase : (splitName f.name).getLastD "" = baseOf f.name := rfl
  rw [hstep, hpp_eq, hbase]
  have hkeys2 : keysOf (fmPush (addFolders m (joinSlash [])
      (splitName f.name).dropLast) (dirOf f.name)
        (.fileLeaf (baseOf f.name) f.name f.content)) =
      keysOf (addFolders m (joinSlash []) (splitName f.name).dropLast) :=
    keysOf_fmPush _ _ _
  have hch : ∀ x, childrenAt (fmPush (addFolders m (joinSlash [])
      (splitName f.name).dropLast) (dirOf f.name)
        (.fileLeaf (baseOf f.name) f.name f.content)) x =
      if x = dirOf f.name then
        childrenAt (addFolders m (joinSlash []) (splitName f.name).dropLast) x
          ++ [.fileLeaf (baseOf f.name) f.name f.content]
      else childrenAt (addFolders m (joinSlash []) (splitName f.name).dropLast) x := by
    intro x
    rw [childrenAt_fmPush]
    by_cases hx : x = dirOf f.name
    · rw [if_pos ⟨hx, hpar_mem⟩, if_pos hx]
    · rw [if_neg (fun h => hx h.1), if_neg hx]
  refine ⟨by rw [hkeys2]; exact hnodup, ?_, ?_, ?_⟩
  · intro q
    rw [hkeys2, hk2 q, inChains_append]
    constructor
    · rintro (h | h | h)
      · exact Or.inl h
      · exact Or.inr (Or.inl (Or.inl h))
      · exact Or.inr (Or.inl (Or.inr h))
    · rintro (h | (h | h) | h)
      · exact Or.inl h
      · exact Or.inr (Or.inl h)
      · exact Or.inr (Or.inr h)
      · simp at h
  · intro p q
    rw [hch p]
    have hcount : (childrenAt (addFolders m (joinSlash [])
        (splitName f.name).dropLast) p).count (.folderRef q) =
        if p ∈ keysOf (addFolders m (joinSlash []) (splitName f.name).dropLast) ∧
          (inChains fs q ∨ q ∈ dirChain f.name) ∧ dirOf q = p then 1 else 0 :=
      hc1 p q
    by_cases hp : p = dirOf f.name
    · rw [if_pos hp, count_concat,
        if_neg (by intro h; exact RawChild.noConfusion h), Nat.add_zero, hcount]
      refine if_congr ?_ rfl rfl
      rw [hkeys2, inChains_append]
      simp
    · rw [if_neg hp, hcount]
      refine if_congr ?_ rfl rfl
      rw [hkeys2, inChains_append]
      simp
  · intro p n pth ct
    rw [hch p]
    have hcount := hc2 p n pth ct
    by_cases hp : p = dirOf f.name
    · rw [if_pos hp, count_concat]
      by_cases htuple : RawChild.fileLeaf (baseOf f.name) f.name f.content =
          RawChild.fileLeaf n pth ct
      · rw [if_pos htuple, hcount]
        have hn : n = baseOf f.name ∧ pth = f.name ∧ ct = f.content := by
          injection htuple with h1 h2 h3
          exact ⟨h1.symm, h2.symm, h3.symm⟩
        obtain ⟨hn1, hn2, hn3⟩ := hn
        subst hn1
        subst hn2
        subst hn3
        have hzero : ¬ (p ∈ keysOf (addFolders m (joinSlash [])
            (splitName f.name).dropLast) ∧ leafMatches fs f.name f.content ∧
            baseOf f.name = baseOf f.name ∧ p = dirOf f.name) := by
          rintro ⟨_, ⟨g, hg, hgn, _⟩, _, _⟩
          exact hfresh g hg hgn
        rw [if_neg hzero, if_pos ⟨by rw [hkeys2, hp]; exact hpar_mem,
          (leafMatches_append fs f f.name f.content).mpr (Or.inr ⟨rfl, rfl⟩),
          rfl, hp⟩]
      · rw [if_neg htuple, Nat.add_zero, hcount]
        refine if_congr ?_ rfl rfl
        rw [hkeys2, leafMatches_append]
        constructor
        · rintro ⟨h1, h2, h3, h4⟩
          exact ⟨h1, Or.inl h2, h3, h4⟩
        · rintro ⟨h1, h2 | ⟨hb1, hb2⟩, h3, h4⟩
          · exact ⟨h1, h2, h3, h4⟩
          · exfalso
            apply htuple
            subst hb1
            subst hb2
            rw [h3]
    · rw [if_neg hp, hcount]
      refine if_congr ?_ rfl rfl
      rw [hkeys2, leafMatches_append]
      constructor
      · rintro ⟨h1, h2, h3, h4⟩
        exact ⟨h1, Or.inl h2, h3, h4⟩
      · rintro ⟨h1, h2 | ⟨hb1, hb2⟩, h3, h4⟩
        · exact ⟨h1, h2, h3, h4⟩
        · exfalso
          apply hp
          rw [h4, hb1]

end HTMLCraft

namespace HTMLCraft

theorem foldl_processFile_inv :
    ∀ (l fs0 : List CFile) (m : FolderMap),
      (∀ g ∈ fs0 ++ l, GoodName g.name) →
      ((fs0 ++ l).map CFile.name).Nodup →
      MapInv fs0 m → MapInv (fs0 ++ l) (l.foldl processFile m) := by
  intro l
  induction l with
  | nil =>
    intro fs0 m _ _ hinv
    rw [List.append_nil]
    exact hinv
  | cons f l2 ih =>
    intro fs0 m hgood hnodup hinv
    have hassoc : fs0 ++ f :: l2 = (fs0 ++ [f]) ++ l2 := by
      rw [List.append_assoc, List.singleton_append]
    have hfresh : ∀ g ∈ fs0, g.name ≠ f.name := by
      intro g hg heq
      have h2 : (fs0.map CFile.name ++ (f :: l2).map CFile.name).Nodup := by
        rw [← List.map_append]
        exact hnodup
      rw [List.nodup_append] at h2
      exact h2.2.2 (List.mem_map_of_mem CFile.name hg)
        (by rw [List.map_cons]; exact heq ▸ List.mem_cons_self _ _)
    have hstep : MapInv (fs0 ++ [f]) (processFile m f) :=
      processFile_inv fs0 f m
        (fun g hg => hgood g (List.mem_append_left _ hg))
        (hgood f (List.mem_append_right _ (List.mem_cons_self f l2)))
        hfresh hinv
    rw [hassoc]
    exact ih (fs0 ++ [f]) (processFile m f)
      (by rw [← hassoc]; exact hgood)
      (by rw [← hassoc]; exact hnodup)
      hstep

theorem buildMap_inv (files : List CFile)
    (hgood : ∀ f ∈ files, GoodName f.name)
    (hnodup : (files.map CFile.name).Nodup) :
    MapInv (sortFiles files) (buildMap files) := by
  have hperm : (sortFiles files).Perm files :=
    List.perm_insertionSort _ files
  have h := foldl_processFile_inv (sortFiles files) [] [("", ⟨"root", []⟩)]
    (by
      intro g hg
      rw [List.nil_append] at hg
      exact hgood g (hperm.mem_iff.mp hg))
    (by
      rw [List.nil_append]
      exact ((hperm.map CFile.name).nodup_iff).mpr hnodup)
    mapInv_init
  rw [List.nil_append] at h
  exact h

end HTMLCraft

namespace HTMLCraft

/-! ### Ancestry chains between keys -/

/-- The keys on the path from `p` (inclusive) down to its descendant `d`
(inclusive). -/
def chainBetween (p d : String) : List String :=
  (List.range (levelOf d - levelOf p + 1)).map
    (fun j => joinSlash ((segsOf d).take (levelOf p + j)))

/-- The child of `p` on the way down to `X`. -/
def stepKey (p X : String) : String :=
  joinSlash ((segsOf X).take (levelOf p + 1))

theorem chainBetween_self (p : String) : chainBetween p p = [p] := by
  unfold chainBetween
  rw [Nat.sub_self, Nat.zero_add, List.range_succ, List.range_zero,
    List.nil_append, List.map_singleton, Nat.add_zero]
  rw [show levelOf p = (segsOf p).length from rfl, List.take_length,
    joinSlash_segsOf]

theorem chainBetween_cons (p d : String) (hgood : goodSegs (segsOf d))
    (hanc : ancSegs p d) (hlt : levelOf p < levelOf d) :
    chainBetween p d = p :: chainBetween (stepKey p d) d := by
  unfold chainBetween stepKey
  have hlevel : levelOf (joinSlash ((segsOf d).take (levelOf p + 1))) =
      levelOf p + 1 :=
    (chain_elem_facts (segsOf d) hgood (levelOf p) hlt).2.1
  rw [hlevel]
  have hrange : levelOf d - levelOf p + 1 = (levelOf d - (levelOf p + 1) + 1) + 1 := by
    omega
  rw [hrange, List.range_succ_eq_map, List.map_cons]
  congr 1
  · rw [Nat.add_zero, hanc, joinSlash_segsOf]
  · rw [List.map_map]
    apply List.map_congr_left
    intro j _
    show joinSlash ((segsOf d).take (levelOf p + (j + 1))) =
      joinSlash ((segsOf d).take (levelOf p + 1 + j))
    congr 2
    omega

/-- A key known to the invariant has good, nonempty canonical segments. -/
theorem key_good (fs : List CFile) (hGoodAll : ∀ g ∈ fs, GoodName g.name)
    (q : String) (h : inChains fs q) : q ≠ "" ∧ goodSegs (segsOf q) := by
  obtain ⟨g, hg, hq⟩ := h
  obtain ⟨i, hi, _, hsegs, _, hne, _⟩ :=
    mem_dirChain_facts g.name (hGoodAll g hg) q hq
  refine ⟨hne, ?_⟩
  rw [hsegs]
  exact goodSegs_of_subset (List.take_subset _ _)
    (goodSegs_splitName g.name (hGoodAll g hg))

theorem stepKey_facts (fs : List CFile) (hGoodAll : ∀ g ∈ fs, GoodName g.name)
    (X p : String) (hX : inChains fs X) (hanc : ancSegs p X)
    (hlt : levelOf p < levelOf X) :
    inChains fs (stepKey p X) ∧
    segsOf (stepKey p X) = (segsOf X).take (levelOf p + 1) ∧
    levelOf (stepKey p X) = levelOf p + 1 ∧
    dirOf (stepKey p X) = p ∧
    ancSegs (stepKey p X) X := by
  obtain ⟨g, hg, hqX⟩ := hX
  obtain ⟨i, hi, hXe, hXsegs, hXlevel, hXne, _⟩ :=
    mem_dirChain_facts g.name (hGoodAll g hg) X hqX
  have hgoodX : goodSegs (segsOf X) := (key_good fs hGoodAll X ⟨g, hg, hqX⟩).2
  have hlp_lt : levelOf p < (segsOf X).length := hlt
  have hfacts := chain_elem_facts (segsOf X) hgoodX (levelOf p) hlp_lt
  have hsegs : segsOf (stepKey p X) = (segsOf X).take (levelOf p + 1) := hfacts.1
  refine ⟨?_, hsegs, hfacts.2.1, ?_, ?_⟩
  · have htake : (segsOf X).take (levelOf p + 1) =
        (splitName g.name).take (levelOf p + 1) := by
      rw [hXsegs, List.take_take, Nat.min_eq_left (by rw [hXlevel] at hlt; omega)]
    refine ⟨g, hg, ?_⟩
    show stepKey p X ∈ dirChain g.name
    unfold stepKey
    rw [htake]
    exact mem_dirChain_of g.name (levelOf p) (by rw [hXlevel] at hlt; omega)
  · show dirOf (joinSlash ((segsOf X).take (levelOf p + 1))) = p
    rw [hfacts.2.2.1, hanc, joinSlash_segsOf]
  · show (segsOf X).take
        (levelOf (joinSlash ((segsOf X).take (levelOf p + 1)))) =
      segsOf (joinSlash ((segsOf X).take (levelOf p + 1)))
    rw [hfacts.2.1, hfacts.1]

theorem step_unique (q X p : String) (hq_ne : q ≠ "")
    (hqgood : goodSegs (segsOf q)) (hdir : dirOf q = p) (hanc : ancSegs q X) :
    q = stepKey p X := by
  have hpar := parent_facts q hq_ne hqgood
  have hlevel : levelOf q = levelOf p + 1 := by
    have := hpar.2.1
    rw [hdir] at this
    omega
  have hsegs : segsOf q = (segsOf X).take (levelOf p + 1) := by
    rw [← hlevel, hanc]
  rw [← joinSlash_segsOf q, hsegs]
  rfl

theorem key_level_bound (fs : List CFile) (m : FolderMap)
    (hGoodAll : ∀ g ∈ fs, GoodName g.name) (hinv : MapInv fs m) :
    ∀ X ∈ keysOf m, levelOf X < m.length := by
  intro X hX
  have hk2 := hinv.2.1 X
  have hlen : (keysOf m).length = m.length := List.length_map m Prod.fst
  rcases (by simpa using (hk2.mp hX) : X = "" ∨ inChains fs X) with h | h
  · subst h
    have : 0 < (keysOf m).length := List.length_pos_of_mem hX
    have hlev : levelOf "" = 0 := rfl
    omega
  · obtain ⟨g, hg, hqX⟩ := h
    obtain ⟨i, hi, hXe, hXsegs, hXlevel, hXne, _⟩ :=
      mem_dirChain_facts g.name (hGoodAll g hg) X hqX
    have hP : ∀ j, j < i + 1 →
        joinSlash ((splitName g.name).take (j + 1)) ∈ keysOf m := by
      intro j hj
      refine (hinv.2.1 _).mpr (Or.inr ?_)
      have : inChains fs (joinSlash ((splitName g.name).take (j + 1))) :=
        ⟨g, hg, mem_dirChain_of g.name j (by omega)⟩
      simpa using this
    have hmapNodup : (("" : String) ::
        (List.range (i + 1)).map
          (fun j => joinSlash ((splitName g.name).take (j + 1)))).Nodup := by
      rw [List.nodup_cons]
      constructor
      · intro hmem
        obtain ⟨j, hj, hje⟩ := List.mem_map.mp hmem
        rw [List.mem_range] at hj
        have := chain_elem_facts (splitName g.name)
          (goodSegs_splitName g.name (hGoodAll g hg)) j (by omega)
        exact this.2.2.2 hje
      · apply List.Nodup.map_on
        · intro x hx y hy hxy
          rw [List.mem_range] at hx hy
          have hfx := chain_elem_facts (splitName g.name)
            (goodSegs_splitName g.name (hGoodAll g hg)) x (by omega)
          have hfy := chain_elem_facts (splitName g.name)
            (goodSegs_splitName g.name (hGoodAll g hg)) y (by omega)
          have : (splitName g.name).take (x + 1) = (splitName g.name).take (y + 1) := by
            rw [← hfx.1, ← hfy.1, hxy]
          have hlx := congrArg List.length this
          rw [List.length_take, List.length_take] at hlx
          omega
        · exact List.nodup_range (i + 1)
    have hsub : (("" : String) ::
        (List.range (i + 1)).map
          (fun j => joinSlash ((splitName g.name).take (j + 1)))) ⊆ keysOf m := by
      intro x hx
      rcases List.mem_cons.mp hx with h | h
      · subst h
        exact (hinv.2.1 "").mpr (Or.inl rfl)
      · obtain ⟨j, hj, hje⟩ := List.mem_map.mp h
        rw [List.mem_range] at hj
        exact hje ▸ hP j hj
    have hle := (List.subperm_of_subset hmapNodup hsub).length_le
    rw [List.length_cons, List.length_map, List.length_range] at hle
    rw [hXlevel]
    omega

/-- Convenient restatements of the invariant with the empty extra chain
removed. -/
theorem mapInv_k2 (fs : List CFile) (m : FolderMap) (hinv : MapInv fs m) :
    ∀ q, q ∈ keysOf m ↔ (q = "" ∨ inChains fs q) := by
  intro q
  have := hinv.2.1 q
  simpa using this

theorem mapInv_c1 (fs : List CFile) (m : FolderMap) (hinv : MapInv fs m) :
    ∀ p q, (childrenAt m p).count (.folderRef q) =
      if p ∈ keysOf m ∧ inChains fs q ∧ dirOf q = p then 1 else 0 := by
  intro p q
  have h := hinv.2.2.1 p q
  have hcond : (p ∈ keysOf m ∧ (inChains fs q ∨ q ∈ ([] : List String)) ∧
      dirOf q = p) ↔ (p ∈ keysOf m ∧ inChains fs q ∧ dirOf q = p) := by
    simp
  rw [h, if_congr hcond rfl rfl]

end HTMLCraft

namespace HTMLCraft

instance ancSegsDecidable (p X : String) : Decidable (ancSegs p X) := by
  unfold ancSegs
  infer_instance

theorem mapInv_c2 (fs : List CFile) (m : FolderMap) (hinv : MapInv fs m) :
    ∀ p n pth ct, (childrenAt m p).count (.fileLeaf n pth ct) =
      if p ∈ keysOf m ∧ leafMatches fs pth ct ∧ n = baseOf pth ∧ p = dirOf pth
      then 1 else 0 :=
  hinv.2.2.2

theorem children_ref_facts (fs : List CFile) (m : FolderMap) (hinv : MapInv fs m)
    (p q : String) (hc : RawChild.folderRef q ∈ childrenAt m p) :
    inChains fs q ∧ dirOf q = p := by
  have hcount : 0 < (childrenAt m p).count (.folderRef q) :=
    List.count_pos_iff.mpr hc
  rw [mapInv_c1 fs m hinv p q] at hcount
  by_cases hcond : p ∈ keysOf m ∧ inChains fs q ∧ dirOf q = p
  · exact ⟨hcond.2.1, hcond.2.2⟩
  · rw [if_neg hcond] at hcount
    omega

theorem children_leaf_facts (fs : List CFile) (m : FolderMap) (hinv : MapInv fs m)
    (p n pth ct : String) (hc : RawChild.fileLeaf n pth ct ∈ childrenAt m p) :
    leafMatches fs pth ct ∧ n = baseOf pth ∧ p = dirOf pth := by
  have hcount : 0 < (childrenAt m p).count (.fileLeaf n pth ct) :=
    List.count_pos_iff.mpr hc
  rw [mapInv_c2 fs m hinv p n pth ct] at hcount
  by_cases hcond : p ∈ keysOf m ∧ leafMatches fs pth ct ∧ n = baseOf pth ∧
      p = dirOf pth
  · exact ⟨hcond.2.1, hcond.2.2⟩
  · rw [if_neg hcond] at hcount
    omega

theorem child_key_facts (fs : List CFile) (m : FolderMap)
    (hGoodAll : ∀ g ∈ fs, GoodName g.name) (hinv : MapInv fs m) (p q : String)
    (hin : inChains fs q) (hdir : dirOf q = p) :
    q ∈ keysOf m ∧ q ≠ "" ∧ goodSegs (segsOf q) ∧ ancSegs p q ∧
      levelOf q = levelOf p + 1 := by
  have hg := key_good fs hGoodAll q hin
  have hpar := parent_facts q hg.1 hg.2
  refine ⟨(mapInv_k2 fs m hinv q).mpr (Or.inr hin), hg.1, hg.2, ?_, ?_⟩
  · rw [← hdir]
    exact hpar.2.2
  · have h2 := hpar.2.1
    rw [hdir] at h2
    omega

/-- The child materialization step used inside `materializeFolder`. -/
def matChild (m : FolderMap) (fm : Nat) : RawChild → FileNode
  | RawChild.folderRef q => materializeFolder m fm q (nameAt m q)
  | RawChild.fileLeaf n pth ct => FileNode.file n pth ct

theorem countP_flatten_map {α : Type} (pr : List String × FileNode → Bool)
    (g : α → List (List String × FileNode)) (K : List α) :
    ((K.map g).flatten).countP pr = (K.map (fun c => (g c).countP pr)).sum := by
  induction K with
  | nil => rfl
  | cons c K ih =>
    simp only [List.map_cons, List.flatten_cons, List.countP_append,
      List.sum_cons, ih]

theorem filter_flatten_map {α : Type} (pr : List String × FileNode → Bool)
    (g : α → List (List String × FileNode)) (K : List α) :
    ((K.map g).flatten).filter pr = (K.map (fun c => (g c).filter pr)).flatten := by
  induction K with
  | nil => rfl
  | cons c K ih =>
    simp only [List.map_cons, List.flatten_cons, List.filter_append, ih]

theorem sum_map_zero {α : Type} (K : List α) :
    (K.map (fun _ => (0 : Nat))).sum = 0 := by
  induction K with
  | nil => rfl
  | cons c K ih => rw [List.map_cons, List.sum_cons, ih]

theorem countP_materialize_succ (pr : List String × FileNode → Bool)
    (m : FolderMap) (fm : Nat) (anc : List String) (p nm : String) :
    (collectNodes (fm + 1 + 2) anc (materializeFolder m (fm + 1) p nm)).countP pr =
    (if pr (anc, materializeFolder m (fm + 1) p nm) then 1 else 0) +
    ((childrenAt m p).map
      (fun c => (collectNodes (fm + 2) (anc ++ [p])
        (matChild m fm c)).countP pr)).sum :=
  calc (collectNodes (fm + 1 + 2) anc (materializeFolder m (fm + 1) p nm)).countP pr
      = ((anc, materializeFolder m (fm + 1) p nm) ::
          (((childrenAt m p).map (matChild m fm)).map
            (fun c => collectNodes (fm + 2) (anc ++ [p]) c)).flatten).countP pr := rfl
    _ = ((anc, materializeFolder m (fm + 1) p nm) ::
          ((childrenAt m p).map
            (fun c => collectNodes (fm + 2) (anc ++ [p])
              (matChild m fm c))).flatten).countP pr := by
        rw [List.map_map]
        rfl
    _ = (if pr (anc, materializeFolder m (fm + 1) p nm) then 1 else 0) +
        (((childrenAt m p).map
          (fun c => collectNodes (fm + 2) (anc ++ [p])
            (matChild m fm c))).flatten).countP pr := by
        rw [List.countP_cons, Nat.add_comm]
    _ = (if pr (anc, materializeFolder m (fm + 1) p nm) then 1 else 0) +
        ((childrenAt m p).map
          (fun c => (collectNodes (fm + 2) (anc ++ [p])
            (matChild m fm c)).countP pr)).sum := by
        rw [countP_flatten_map]

theorem filter_materialize_succ (pr : List String × FileNode → Bool)
    (m : FolderMap) (fm : Nat) (anc : List String) (p nm : String) :
    (collectNodes (fm + 1 + 2) anc (materializeFolder m (fm + 1) p nm)).filter pr =
    (if pr (anc, materializeFolder m (fm + 1) p nm)
      then [(anc, materializeFolder m (fm + 1) p nm)] else []) ++
    ((childrenAt m p).map
      (fun c => (collectNodes (fm + 2) (anc ++ [p])
        (matChild m fm c)).filter pr)).flatten :=
  calc (collectNodes (fm + 1 + 2) anc (materializeFolder m (fm + 1) p nm)).filter pr
      = ((anc, materializeFolder m (fm + 1) p nm) ::
          (((childrenAt m p).map (matChild m fm)).map
            (fun c => collectNodes (fm + 2) (anc ++ [p]) c)).flatten).filter pr := rfl
    _ = ((anc, materializeFolder m (fm + 1) p nm) ::
          ((childrenAt m p).map
            (fun c => collectNodes (fm + 2) (anc ++ [p])
              (matChild m fm c))).flatten).filter pr := by
        rw [List.map_map]
        rfl
    _ = (if pr (anc, materializeFolder m (fm + 1) p nm)
          then [(anc, materializeFolder m (fm + 1) p nm)] else []) ++
        (((childrenAt m p).map
          (fun c => collectNodes (fm + 2) (anc ++ [p])
            (matChild m fm c))).flatten).filter pr := by
        rw [List.filter_cons]
        by_cases h : pr (anc, materializeFolder m (fm + 1) p nm)
        · rw [if_pos h, if_pos h, List.singleton_append]
        · rw [if_neg h, if_neg h, List.nil_append]
    _ = (if pr (anc, materializeFolder m (fm + 1) p nm)
          then [(anc, materializeFolder m (fm + 1) p nm)] else []) ++
        ((childrenAt m p).map
          (fun c => (collectNodes (fm + 2) (anc ++ [p])
            (matChild m fm c)).filter pr)).flatten := by
        rw [filter_flatten_map]

end HTMLCraft

namespace HTMLCraft

theorem mainFolderCount (fs : List CFile) (m : FolderMap)
    (hGoodAll : ∀ g ∈ fs, GoodName g.name) (hinv : MapInv fs m) :
    ∀ (fm : Nat) (p : String), p ∈ keysOf m →
      (∀ Y ∈ keysOf m, ancSegs p Y → levelOf Y < levelOf p + fm) →
      ∀ (anc : List String) (nm : String) (X : String),
        (collectNodes (fm + 2) anc (materializeFolder m fm p nm)).countP
          (isFolderAt X) =
        (if X ∈ keysOf m ∧ ancSegs p X then 1 else 0) := by
  intro fm
  induction fm with
  | zero =>
    intro p hp hdepth
    exact absurd (hdepth p hp (ancSegs_refl p)) (by omega)
  | succ fm ih =>
    intro p hp hdepth anc nm X
    rw [countP_materialize_succ (isFolderAt X) m fm anc p nm]
    have hhead : isFolderAt X (anc, materializeFolder m (fm + 1) p nm) =
        (p == X) := rfl
    rw [hhead]
    by_cases hXp : X = p
    · subst hXp
      have hsum : ∀ c ∈ childrenAt m X,
          (collectNodes (fm + 2) (anc ++ [X]) (matChild m fm c)).countP
            (isFolderAt X) = (fun _ => (0 : Nat)) c := by
        intro c hc
        cases c with
        | folderRef q =>
          have href := children_ref_facts fs m hinv X q hc
          have hkey := child_key_facts fs m hGoodAll hinv X q href.1 href.2
          show (collectNodes (fm + 2) (anc ++ [X])
            (materializeFolder m fm q (nameAt m q))).countP (isFolderAt X) = 0
          have hdepth_q : ∀ Y ∈ keysOf m, ancSegs q Y →
              levelOf Y < levelOf q + fm := by
            intro Y hY hancq
            have h1 := hdepth Y hY (ancSegs_trans hkey.2.2.2.1 hancq)
            omega
          rw [ih q hkey.1 hdepth_q (anc ++ [X]) (nameAt m q) X]
          rw [if_neg]
          rintro ⟨_, hanc⟩
          have := ancSegs_level_le hanc
          omega
        | fileLeaf n pth ct =>
          show ((([(anc ++ [X], FileNode.file n pth ct)]) :
            List (List String × FileNode)).countP (isFolderAt X)) = 0
          simp [List.countP_cons, isFolderAt, FileNode.isFolder]
      rw [List.map_congr_left hsum, sum_map_zero,
        if_pos (beq_self_eq_true X), if_pos ⟨hp, ancSegs_refl X⟩]
    · have hheadf : ¬((p == X) = true) := by
        intro h
        exact hXp (beq_iff_eq.mp h).symm
      rw [if_neg hheadf]
      by_cases hcond : X ∈ keysOf m ∧ ancSegs p X
      · obtain ⟨hXk, hXanc⟩ := hcond
        have hXlt : levelOf p < levelOf X := by
          rcases Nat.lt_or_ge (levelOf p) (levelOf X) with h | h
          · exact h
          · exact absurd (ancSegs_eq_of_level_le hXanc h) hXp
        have hXne : X ≠ "" := by
          intro h
          rw [h] at hXlt
          have h0 : levelOf "" = 0 := rfl
          omega
        have hXin : inChains fs X := by
          rcases (mapInv_k2 fs m hinv X).mp hXk with h | h
          · exact absurd h hXne
          · exact h
        have hstep := stepKey_facts fs hGoodAll X p hXin hXanc hXlt
        have hpoint : ∀ c ∈ childrenAt m p,
            (collectNodes (fm + 2) (anc ++ [p]) (matChild m fm c)).countP
              (isFolderAt X) =
            (fun c => if c = RawChild.folderRef (stepKey p X) then 1 else 0) c := by
          intro c hc
          cases c with
          | folderRef q =>
            have href := children_ref_facts fs m hinv p q hc
            have hkey := child_key_facts fs m hGoodAll hinv p q href.1 href.2
            show (collectNodes (fm + 2) (anc ++ [p])
              (materializeFolder m fm q (nameAt m q))).countP (isFolderAt X) =
              if RawChild.folderRef q = RawChild.folderRef (stepKey p X)
              then 1 else 0
            have hdepth_q : ∀ Y ∈ keysOf m, ancSegs q Y →
                levelOf Y < levelOf q + fm := by
              intro Y hY hancq
              have h1 := hdepth Y hY (ancSegs_trans hkey.2.2.2.1 hancq)
              omega
            rw [ih q hkey.1 hdepth_q (anc ++ [p]) (nameAt m q) X]
            by_cases hq : q = stepKey p X
            · rw [if_pos ⟨hXk, hq ▸ hstep.2.2.2.2⟩, if_pos (by rw [hq])]
            · rw [if_neg, if_neg]
              · intro h
                exact hq (by injection h)
              · rintro ⟨_, hancq⟩
                exact hq (step_unique q X p hkey.2.1 hkey.2.2.1 href.2 hancq)
          | fileLeaf n pth ct =>
            show ((([(anc ++ [p], FileNode.file n pth ct)]) :
              List (List String × FileNode)).countP (isFolderAt X)) =
              if RawChild.fileLeaf n pth ct = RawChild.folderRef (stepKey p X)
              then 1 else 0
            rw [if_neg (by intro h; exact RawChild.noConfusion h)]
            simp [List.countP_cons, isFolderAt, FileNode.isFolder]
        rw [List.map_congr_left hpoint, count_eq_sum_map_indicator,
          mapInv_c1 fs m hinv p (stepKey p X),
          if_pos ⟨hp, hstep.1, hstep.2.2.2.1⟩, if_pos ⟨hXk, hXanc⟩]
      · have hpoint : ∀ c ∈ childrenAt m p,
            (collectNodes (fm + 2) (anc ++ [p]) (matChild m fm c)).countP
              (isFolderAt X) = (fun _ => (0 : Nat)) c := by
          intro c hc
          cases c with
          | folderRef q =>
            have href := children_ref_facts fs m hinv p q hc
            have hkey := child_key_facts fs m hGoodAll hinv p q href.1 href.2
            show (collectNodes (fm + 2) (anc ++ [p])
              (materializeFolder m fm q (nameAt m q))).countP (isFolderAt X) = 0
            have hdepth_q : ∀ Y ∈ keysOf m, ancSegs q Y →
                levelOf Y < levelOf q + fm := by
              intro Y hY hancq
              have h1 := hdepth Y hY (ancSegs_trans hkey.2.2.2.1 hancq)
              omega
            rw [ih q hkey.1 hdepth_q (anc ++ [p]) (nameAt m q) X, if_neg]
            rintro ⟨hXk, hancq⟩
            exact hcond ⟨hXk, ancSegs_trans hkey.2.2.2.1 hancq⟩
          | fileLeaf n pth ct =>
            show ((([(anc ++ [p], FileNode.file n pth ct)]) :
              List (List String × FileNode)).countP (isFolderAt X)) = 0
            simp [List.countP_cons, isFolderAt, FileNode.isFolder]
        rw [List.map_congr_left hpoint, sum_map_zero, if_neg hcond]

end HTMLCraft

namespace HTMLCraft

theorem leafMatches_unique (fs : List CFile)
    (hNodup : (fs.map CFile.name).Nodup) (pth ct ct' : String)
    (h1 : leafMatches fs pth ct) (h2 : leafMatches fs pth ct') : ct = ct' := by
  obtain ⟨f, hf, hfn, hfc⟩ := h1
  obtain ⟨g, hg, hgn, hgc⟩ := h2
  have hfg : f = g :=
    List.inj_on_of_nodup_map hNodup hf hg (by rw [hfn, hgn])
  rw [← hfc, ← hgc, hfg]

theorem mainLeafFilter (fs : List CFile) (m : FolderMap)
    (hGoodAll : ∀ g ∈ fs, GoodName g.name)
    (hNodup : (fs.map CFile.name).Nodup) (hinv : MapInv fs m) :
    ∀ (fm : Nat) (p : String), p ∈ keysOf m →
      (∀ Y ∈ keysOf m, ancSegs p Y → levelOf Y < levelOf p + fm) →
      ∀ (anc : List String) (nm pth ct : String),
        (leafMatches fs pth ct → ancSegs p (dirOf pth) →
          (collectNodes (fm + 2) anc (materializeFolder m fm p nm)).filter
            (isLeafFor pth) =
          [(anc ++ chainBetween p (dirOf pth),
            FileNode.file (baseOf pth) pth ct)]) ∧
        ((∀ ct2, leafMatches fs pth ct2 → ancSegs p (dirOf pth) → False) →
          (collectNodes (fm + 2) anc (materializeFolder m fm p nm)).filter
            (isLeafFor pth) = []) := by
  intro fm
  induction fm with
  | zero =>
    intro p hp hdepth
    exact absurd (hdepth p hp (ancSegs_refl p)) (by omega)
  | succ fm ih =>
    intro p hp hdepth anc nm pth ct
    have hheadf : isLeafFor pth (anc, materializeFolder m (fm + 1) p nm) =
        false := rfl
    constructor
    · intro hmatch hanc
      rw [filter_materialize_succ (isLeafFor pth) m fm anc p nm]
      rw [if_neg (by intro h; rw [hheadf] at h; exact Bool.false_ne_true h)]
      rw [List.nil_append]
      by_cases hdp : dirOf pth = p
      · rw [hdp, chainBetween_self]
        have hcount : (childrenAt m p).count
            (RawChild.fileLeaf (baseOf pth) pth ct) = 1 := by
          rw [mapInv_c2 fs m hinv p (baseOf pth) pth ct,
            if_pos ⟨hp, hmatch, rfl, hdp.symm⟩]
        have hF : ∀ c ∈ childrenAt m p,
            (collectNodes (fm + 2) (anc ++ [p]) (matChild m fm c)).filter
              (isLeafFor pth) =
            if c = RawChild.fileLeaf (baseOf pth) pth ct
            then [(anc ++ [p], FileNode.file (baseOf pth) pth ct)] else [] := by
          intro c hc
          cases c with
          | folderRef q =>
            rw [if_neg (fun h => RawChild.noConfusion h)]
            have href := children_ref_facts fs m hinv p q hc
            have hkey := child_key_facts fs m hGoodAll hinv p q href.1 href.2
            have hdepth_q : ∀ Y ∈ keysOf m, ancSegs q Y →
                levelOf Y < levelOf q + fm := by
              intro Y hY hancq
              have h1 := hdepth Y hY (ancSegs_trans hkey.2.2.2.1 hancq)
              omega
            show (collectNodes (fm + 2) (anc ++ [p])
              (materializeFolder m fm q (nameAt m q))).filter (isLeafFor pth) = []
            refine (ih q hkey.1 hdepth_q (anc ++ [p]) (nameAt m q) pth ct).2 ?_
            intro ct2 hlm hancq
            have h1 := ancSegs_level_le hancq
            rw [hdp] at h1
            have h2 := hkey.2.2.2.2
            omega
          | fileLeaf n2 pth2 ct2 =>
            have hlf := children_leaf_facts fs m hinv p n2 pth2 ct2 hc
            by_cases heq : RawChild.fileLeaf n2 pth2 ct2 =
                RawChild.fileLeaf (baseOf pth) pth ct
            · rw [if_pos heq]
              injection heq with h1 h2 h3
              show ([(anc ++ [p], FileNode.file n2 pth2 ct2)] :
                List (List String × FileNode)).filter (isLeafFor pth) =
                [(anc ++ [p], FileNode.file (baseOf pth) pth ct)]
              rw [h1, h2, h3]
              simp [List.filter_cons, isLeafFor, FileNode.isFolder, FileNode.path]
            · rw [if_neg heq]
              have hpne : pth2 ≠ pth := by
                intro hpp
                apply heq
                have hctq : ct2 = ct :=
                  leafMatches_unique fs hNodup pth ct2 ct (hpp ▸ hlf.1) hmatch
                rw [hlf.2.1, hpp, hctq]
              show ([(anc ++ [p], FileNode.file n2 pth2 ct2)] :
                List (List String × FileNode)).filter (isLeafFor pth) = []
              simp [List.filter_cons, isLeafFor, FileNode.isFolder,
                FileNode.path, hpne]
        exact flatten_map_eq_single _ _ _ _ hF hcount
      · have hdlt : levelOf p < levelOf (dirOf pth) := by
          rcases Nat.lt_or_ge (levelOf p) (levelOf (dirOf pth)) with h | h
          · exact h
          · exact absurd (ancSegs_eq_of_level_le hanc h) hdp
        have hdne : dirOf pth ≠ "" := by
          intro h
          rw [h] at hdlt
          have h0 : levelOf "" = 0 := rfl
          omega
        have hdin : inChains fs (dirOf pth) := by
          obtain ⟨f, hf, hfn, _⟩ := hmatch
          have hgf := hGoodAll f hf
          have hdm := dirOf_name_mem f.name hgf
          by_cases hlen : 1 < (splitName f.name).length
          · exact ⟨f, hf, by rw [← hfn]; exact hdm.1 hlen⟩
          · exact absurd (by rw [← hfn]; exact hdm.2 (by omega)) hdne
        have hstep := stepKey_facts fs hGoodAll (dirOf pth) p hdin hanc hdlt
        have hkeyStep : stepKey p (dirOf pth) ∈ keysOf m :=
          (mapInv_k2 fs m hinv _).mpr (Or.inr hstep.1)
        have hgoodd : goodSegs (segsOf (dirOf pth)) :=
          (key_good fs hGoodAll (dirOf pth) hdin).2
        rw [chainBetween_cons p (dirOf pth) hgoodd hanc hdlt]
        have hcount : (childrenAt m p).count
            (RawChild.folderRef (stepKey p (dirOf pth))) = 1 := by
          rw [mapInv_c1 fs m hinv p (stepKey p (dirOf pth)),
            if_pos ⟨hp, hstep.1, hstep.2.2.2.1⟩]
        have hF : ∀ c ∈ childrenAt m p,
            (collectNodes (fm + 2) (anc ++ [p]) (matChild m fm c)).filter
              (isLeafFor pth) =
            if c = RawChild.folderRef (stepKey p (dirOf pth))
            then [(anc ++ (p :: chainBetween (stepKey p (dirOf pth)) (dirOf pth)),
              FileNode.file (baseOf pth) pth ct)] else [] := by
          intro c hc
          cases c with
          | folderRef q =>
            have href := children_ref_facts fs m hinv p q hc
            have hkey := child_key_facts fs m hGoodAll hinv p q href.1 href.2
            have hdepth_q : ∀ Y ∈ keysOf m, ancSegs q Y →
                levelOf Y < levelOf q + fm := by
              intro Y hY hancq
              have h1 := hdepth Y hY (ancSegs_trans hkey.2.2.2.1 hancq)
              omega
            by_cases hq : q = stepKey p (dirOf pth)
            · rw [if_pos (by rw [hq])]
              subst hq
              show (collectNodes (fm + 2) (anc ++ [p])
                (materializeFolder m fm (stepKey p (dirOf pth))
                  (nameAt m (stepKey p (dirOf pth))))).filter (isLeafFor pth) =
                [(anc ++ (p :: chainBetween (stepKey p (dirOf pth)) (dirOf pth)),
                  FileNode.file (baseOf pth) pth ct)]
              have hL1 := (ih (stepKey p (dirOf pth)) hkey.1 hdepth_q (anc ++ [p])
                (nameAt m (stepKey p (dirOf pth))) pth ct).1 hmatch hstep.2.2.2.2
              rw [hL1, List.append_assoc, List.singleton_append]
            · rw [if_neg (by intro h; exact hq (by injection h))]
              show (collectNodes (fm + 2) (anc ++ [p])
                (materializeFolder m fm q (nameAt m q))).filter (isLeafFor pth) = []
              refine (ih q hkey.1 hdepth_q (anc ++ [p]) (nameAt m q) pth ct).2 ?_
              intro ct2 hlm hancq
              exact hq (step_unique q (dirOf pth) p hkey.2.1 hkey.2.2.1
                href.2 hancq)
          | fileLeaf n2 pth2 ct2 =>
            rw [if_neg (fun h => RawChild.noConfusion h)]
            have hlf := children_leaf_facts fs m hinv p n2 pth2 ct2 hc
            have hpne : pth2 ≠ pth := by
              intro hpp
              apply hdp
              rw [← hpp]
              exact hlf.2.2.symm
            show ([(anc ++ [p], FileNode.file n2 pth2 ct2)] :
              List (List String × FileNode)).filter (isLeafFor pth) = []
            simp [List.filter_cons, isLeafFor, FileNode.isFolder,
              FileNode.path, hpne]
        exact flatten_map_eq_single _ _ _ _ hF hcount
    · intro hnone
      rw [filter_materialize_succ (isLeafFor pth) m fm anc p nm]
      rw [if_neg (by intro h; rw [hheadf] at h; exact Bool.false_ne_true h)]
      rw [List.nil_append]
      apply flatten_map_eq_nil
      intro c hc
      cases c with
      | folderRef q =>
        have href := children_ref_facts fs m hinv p q hc
        have hkey := child_key_facts fs m hGoodAll hinv p q href.1 href.2
        have hdepth_q : ∀ Y ∈ keysOf m, ancSegs q Y →
            levelOf Y < levelOf q + fm := by
          intro Y hY hancq
          have h1 := hdepth Y hY (ancSegs_trans hkey.2.2.2.1 hancq)
          omega
        show (collectNodes (fm + 2) (anc ++ [p])
          (materializeFolder m fm q (nameAt m q))).filter (isLeafFor pth) = []
        refine (ih q hkey.1 hdepth_q (anc ++ [p]) (nameAt m q) pth ct).2 ?_
        intro ct2 hlm hancq
        exact hnone ct2 hlm (ancSegs_trans hkey.2.2.2.1 hancq)
      | fileLeaf n2 pth2 ct2 =>
        have hlf := children_leaf_facts fs m hinv p n2 pth2 ct2 hc
        have hpne : pth2 ≠ pth := by
          intro hpp
          refine hnone ct2 (hpp ▸ hlf.1) ?_
          rw [← hpp, ← hlf.2.2]
          exact ancSegs_refl p
        show ([(anc ++ [p], FileNode.file n2 pth2 ct2)] :
          List (List String × FileNode)).filter (isLeafFor pth) = []
        simp [List.filter_cons, isLeafFor, FileNode.isFolder,
          FileNode.path, hpne]

end HTMLCraft

namespace HTMLCraft

theorem chainBetween_root (nm : String) (hg : GoodName nm) :
    chainBetween "" (dirOf nm) = "" :: dirChain nm := by
  have hne : nm ≠ "" := good_name_ne_empty nm hg
  have hsegs : segsOf nm = splitName nm := by
    show (if nm = "" then [] else splitName nm) = splitName nm
    rw [if_neg hne]
  have hgoodsegs : goodSegs (segsOf nm) := by
    rw [hsegs]
    exact goodSegs_splitName nm hg
  have hpar := parent_facts nm hne hgoodsegs
  have hlen1 : 1 ≤ (splitName nm).length :=
    List.length_pos.mpr (splitName_ne_nil nm)
  have hlevnm : levelOf nm = (splitName nm).length := by
    rw [levelOf, hsegs]
  have hlev : levelOf (dirOf nm) = (splitName nm).length - 1 := by
    have h1 := hpar.2.1
    omega
  have hds : segsOf (dirOf nm) = (splitName nm).dropLast := by
    rw [hpar.1, hsegs]
  unfold chainBetween dirChain
  rw [hlev, hds]
  have h0 : levelOf "" = 0 := rfl
  rw [h0, Nat.sub_zero, List.range_succ_eq_map, List.map_cons, List.map_map]
  refine List.cons_eq_cons.mpr ⟨rfl, ?_⟩
  apply List.map_congr_left
  intro i hi
  rw [List.mem_range] at hi
  show joinSlash ((splitName nm).dropLast.take (0 + (i + 1))) =
    joinSlash ((splitName nm).take (i + 1))
  rw [Nat.zero_add]
  congr 1
  exact take_dropLast _ _ (by omega)

theorem buildTree_good_names (files : List CFile)
    (hGood : ∀ f ∈ files, GoodName f.name)
    (hNodup : (files.map CFile.name).Nodup) :
    buildTreeClaim files := by
  have hinv := buildMap_inv files hGood hNodup
  have hperm : (sortFiles files).Perm files := List.perm_insertionSort _ files
  have hGoodS : ∀ g ∈ sortFiles files, GoodName g.name :=
    fun g hg => hGood g (hperm.mem_iff.mp hg)
  have hNodupS : ((sortFiles files).map CFile.name).Nodup :=
    ((hperm.map CFile.name).nodup_iff).mpr hNodup
  have hroot : "" ∈ keysOf (buildMap files) :=
    (mapInv_k2 _ _ hinv "").mpr (Or.inl rfl)
  have hdepth : ∀ Y ∈ keysOf (buildMap files), ancSegs "" Y →
      levelOf Y < levelOf "" + ((buildMap files).length + 1) := by
    intro Y hY _
    have h1 := key_level_bound (sortFiles files) (buildMap files) hGoodS hinv Y hY
    have h0 : levelOf "" = 0 := rfl
    omega
  have htree : treeOccs files =
      collectNodes ((buildMap files).length + 1 + 2) []
        (materializeFolder (buildMap files) ((buildMap files).length + 1)
          "" "root") := rfl
  intro f hf
  have hfS : f ∈ sortFiles files := hperm.mem_iff.mpr hf
  have hgf := hGood f hf
  have hmatch : leafMatches (sortFiles files) f.name f.content := ⟨f, hfS, rfl, rfl⟩
  have hancd : ancSegs "" (dirOf f.name) := ancSegs_empty _
  have hL1 := (mainLeafFilter (sortFiles files) (buildMap files) hGoodS hNodupS
    hinv ((buildMap files).length + 1) "" hroot hdepth [] "root"
    f.name f.content).1 hmatch hancd
  rw [← htree] at hL1
  have hchain : ([] : List String) ++ chainBetween "" (dirOf f.name) =
      "" :: dirChain f.name := by
    rw [List.nil_append, chainBetween_root f.name hgf]
  rw [hchain] at hL1
  refine ⟨?_, ?_, ?_⟩
  · rw [hL1]
    rfl
  · intro o ho
    rw [hL1] at ho
    rw [List.mem_singleton.mp ho]
    exact ⟨rfl, rfl, rfl⟩
  · intro P hP
    have hPin : inChains (sortFiles files) P := ⟨f, hfS, hP⟩
    have hPk : P ∈ keysOf (buildMap files) :=
      (mapInv_k2 _ _ hinv P).mpr (Or.inr hPin)
    have hcnt := mainFolderCount (sortFiles files) (buildMap files) hGoodS hinv
      ((buildMap files).length + 1) "" hroot hdepth [] "root" P
    rw [← htree] at hcnt
    rw [if_pos ⟨hPk, ancSegs_empty P⟩] at hcnt
    rw [← List.countP_eq_length_filter]
    exact hcnt

instance buildTreeClaimDecidable (files : List CFile) :
    Decidable (buildTreeClaim files) := by
  unfold buildTreeClaim
  infer_instance

end HTMLCraft

namespace HTMLCraft

instance goodNameDecidable (nm : String) : Decidable (GoodName nm) := by
  unfold GoodName
  infer_instance


theorem addFolders_cons (m : FolderMap) (cur part : String) (rest : List String) :
    addFolders m cur (part :: rest) =
    addFolders
      (if (fmLookup m (jsJoin cur part)).isSome then m
       else
        if (fmLookup (m ++ [(jsJoin cur part, ⟨part, []⟩)]) cur).isSome then
          fmPush (m ++ [(jsJoin cur part, ⟨part, []⟩)]) cur
            (.folderRef (jsJoin cur part))
        else m ++ [(jsJoin cur part, ⟨part, []⟩)])
      (jsJoin cur part) rest := rfl

theorem addFoldersE_cons (m : FolderMap) (cur part : String) (rest : List String) :
    addFoldersE m cur (part :: rest) =
    (if objTruthy m (jsJoin cur part) then addFoldersE m (jsJoin cur part) rest
     else
      if (fmLookup (m ++ [(jsJoin cur part, ⟨part, []⟩)]) cur).isSome then
        addFoldersE (fmPush (m ++ [(jsJoin cur part, ⟨part, []⟩)]) cur
          (.folderRef (jsJoin cur part))) (jsJoin cur part) rest
      else if protoKeys.contains cur then Except.error ()
      else addFoldersE (m ++ [(jsJoin cur part, ⟨part, []⟩)]) (jsJoin cur part) rest) :=
  rfl

theorem jsChainKeys_chain (L : List String) :
    ∀ (pre : List String), goodSegs pre → goodSegs L →
    jsChainKeys (joinSlash pre) L =
      (List.range L.length).map (fun i => joinSlash (pre ++ L.take (i + 1))) := by
  induction L with
  | nil =>
    intro pre _ _
    rfl
  | cons part rest ih =>
    intro pre hgp hgl
    have hjoin : jsJoin (joinSlash pre) part = joinSlash (pre ++ [part]) := by
      apply jsJoin_joinSlash
      cases pre with
      | nil => exact Or.inl rfl
      | cons p ps =>
        exact Or.inr (joinSlash_ne_empty p ps (hgp p (List.mem_cons_self p ps)).1)
    show jsJoin (joinSlash pre) part ::
      jsChainKeys (jsJoin (joinSlash pre) part) rest = _
    rw [hjoin]
    have hgp2 : goodSegs (pre ++ [part]) := by
      intro x hx
      rcases List.mem_append.mp hx with h | h
      · exact hgp x h
      · rw [List.mem_singleton.mp h]
        exact hgl part (List.mem_cons_self part rest)
    have hgl2 : goodSegs rest := fun x hx => hgl x (List.mem_cons_of_mem part hx)
    rw [ih (pre ++ [part]) hgp2 hgl2]
    rw [show (part :: rest).length = rest.length + 1 from rfl,
      List.range_succ_eq_map, List.map_cons, List.map_map]
    refine List.cons_eq_cons.mpr ⟨rfl, ?_⟩
    apply List.map_congr_left
    intro i hi
    show joinSlash ((pre ++ [part]) ++ rest.take (i + 1)) =
      joinSlash (pre ++ part :: rest.take (i + 1))
    rw [List.append_assoc]
    rfl

theorem jsChainKeys_root (L : List String) (hgood : goodSegs L) :
    jsChainKeys "" L = chainOfSegs L := by
  have h := jsChainKeys_chain L [] (fun x hx => absurd hx (List.not_mem_nil x))
    hgood
  exact h.trans (by
    unfold chainOfSegs
    apply List.map_congr_left
    intro i hi
    rw [List.nil_append])

theorem addFoldersE_eq (parts : List String) :
    ∀ (m : FolderMap) (cur : String),
      (fmLookup m cur).isSome = true →
      (∀ k ∈ jsChainKeys cur parts, protoKeys.contains k = false) →
      addFoldersE m cur parts = Except.ok (addFolders m cur parts) := by
  induction parts with
  | nil =>
    intro m cur _ _
    rfl
  | cons part rest ih =>
    intro m cur hcur hkeys
    have hhead : protoKeys.contains (jsJoin cur part) = false :=
      hkeys _ (List.mem_cons_self _ _)
    have hrest : ∀ k ∈ jsChainKeys (jsJoin cur part) rest,
        protoKeys.contains k = false :=
      fun k hk => hkeys k (List.mem_cons_of_mem _ hk)
    rw [addFoldersE_cons, addFolders_cons]
    have hobj : objTruthy m (jsJoin cur part) =
        (fmLookup m (jsJoin cur part)).isSome := by
      show ((fmLookup m (jsJoin cur part)).isSome ||
        protoKeys.contains (jsJoin cur part)) = _
      rw [hhead, Bool.or_false]
    rw [hobj]
    by_cases hcp : (fmLookup m (jsJoin cur part)).isSome = true
    · rw [if_pos hcp, if_pos hcp]
      exact ih m (jsJoin cur part) hcp hrest
    · rw [if_neg hcp, if_neg hcp]
      have h3 : (fmLookup (m ++ [(jsJoin cur part, ⟨part, []⟩)]) cur).isSome =
          true := by
        rw [fmLookup_append_sing, if_pos hcur]
        exact hcur
      rw [if_pos h3, if_pos h3]
      apply ih
      · rw [fmLookup_fmPush]
        have hne : ¬(jsJoin cur part = cur) := by
          intro h
          rw [h] at hcp
          exact hcp hcur
        rw [if_neg hne, fmLookup_append_sing, if_neg hcp, if_pos rfl]
        rfl
      · exact hrest

theorem processFileE_eq_aux (parts : List String) (nm ct : String)
    (m1 : FolderMap)
    (hpar : protoKeys.contains
      (if 1 < parts.length then joinSlash parts.dropLast else "") = false) :
    (if (fmLookup m1 (if 1 < parts.length then joinSlash parts.dropLast
        else "")).isSome then
      (Except.ok (fmPush m1 (if 1 < parts.length then joinSlash parts.dropLast
        else "") (RawChild.fileLeaf (parts.getLastD "") nm ct)) :
        Except Unit FolderMap)
     else if protoKeys.contains (if 1 < parts.length
        then joinSlash parts.dropLast else "") then Except.error ()
     else Except.ok (fmPush m1 "" (RawChild.fileLeaf (parts.getLastD "") nm ct))) =
    Except.ok (if (fmLookup m1 (if 1 < parts.length then joinSlash parts.dropLast
        else "")).isSome then
      fmPush m1 (if 1 < parts.length then joinSlash parts.dropLast else "")
        (RawChild.fileLeaf (parts.getLastD "") nm ct)
     else fmPush m1 "" (RawChild.fileLeaf (parts.getLastD "") nm ct)) := by
  by_cases h : (fmLookup m1 (if 1 < parts.length then joinSlash parts.dropLast
      else "")).isSome = true
  · rw [if_pos h, if_pos h]
  · rw [if_neg h, if_neg h, if_neg (by rw [hpar]; exact Bool.false_ne_true)]

theorem processFileE_eq (m : FolderMap) (f : CFile)
    (hroot : (fmLookup m "").isSome = true)
    (hkeys : ∀ k ∈ jsChainKeys "" (jsSplitStr '/' f.name).dropLast,
      protoKeys.contains k = false)
    (hpar : protoKeys.contains (if 1 < (jsSplitStr '/' f.name).length
      then joinSlash (jsSplitStr '/' f.name).dropLast else "") = false) :
    processFileE m f = Except.ok (processFile m f) := by
  have haddE := addFoldersE_eq (jsSplitStr '/' f.name).dropLast m "" hroot hkeys
  show (match addFoldersE m "" (jsSplitStr '/' f.name).dropLast with
    | Except.error e => Except.error e
    | Except.ok m1 =>
      if (fmLookup m1 (if 1 < (jsSplitStr '/' f.name).length
          then joinSlash (jsSplitStr '/' f.name).dropLast else "")).isSome then
        Except.ok (fmPush m1 (if 1 < (jsSplitStr '/' f.name).length
          then joinSlash (jsSplitStr '/' f.name).dropLast else "")
          (RawChild.fileLeaf ((jsSplitStr '/' f.name).getLastD "")
            f.name f.content))
      else if protoKeys.contains (if 1 < (jsSplitStr '/' f.name).length
          then joinSlash (jsSplitStr '/' f.name).dropLast else "") then
        Except.error ()
      else Except.ok (fmPush m1 "" (RawChild.fileLeaf
        ((jsSplitStr '/' f.name).getLastD "") f.name f.content))) =
    Except.ok (processFile m f)
  rw [haddE]
  have hpf : processFile m f =
      (if (fmLookup (addFolders m "" (jsSplitStr '/' f.name).dropLast)
          (if 1 < (jsSplitStr '/' f.name).length
           then joinSlash (jsSplitStr '/' f.name).dropLast else "")).isSome then
        fmPush (addFolders m "" (jsSplitStr '/' f.name).dropLast)
          (if 1 < (jsSplitStr '/' f.name).length
           then joinSlash (jsSplitStr '/' f.name).dropLast else "")
          (RawChild.fileLeaf ((jsSplitStr '/' f.name).getLastD "")
            f.name f.content)
       else fmPush (addFolders m "" (jsSplitStr '/' f.name).dropLast) ""
          (RawChild.fileLeaf ((jsSplitStr '/' f.name).getLastD "")
            f.name f.content)) := rfl
  rw [hpf]
  exact processFileE_eq_aux (jsSplitStr '/' f.name) f.name f.content
    (addFolders m "" (jsSplitStr '/' f.name).dropLast) hpar

theorem foldProcessE_eq :
    ∀ (l fs0 : List CFile) (m : FolderMap),
      (∀ g ∈ fs0 ++ l, GoodName g.name) →
      ((fs0 ++ l).map CFile.name).Nodup →
      (∀ g ∈ l, ∀ p ∈ dirChain g.name, protoKeys.contains p = false) →
      MapInv fs0 m →
      foldProcessE m l = Except.ok (l.foldl processFile m) := by
  intro l
  induction l with
  | nil =>
    intro fs0 m _ _ _ _
    rfl
  | cons f l2 ih =>
    intro fs0 m hgood hnodup hproto hinv
    have hassoc : fs0 ++ f :: l2 = (fs0 ++ [f]) ++ l2 := by
      rw [List.append_assoc, List.singleton_append]
    have hgf : GoodName f.name :=
      hgood f (List.mem_append_right _ (List.mem_cons_self f l2))
    have hroot : (fmLookup m "").isSome = true :=
      (fmLookup_isSome_iff m "").mpr ((mapInv_k2 fs0 m hinv "").mpr (Or.inl rfl))
    have hgoodsegs : goodSegs (splitName f.name) := goodSegs_splitName f.name hgf
    have hgooddrop : goodSegs (splitName f.name).dropLast :=
      goodSegs_of_subset (List.dropLast_subset _) hgoodsegs
    have hkeys : ∀ k ∈ jsChainKeys "" (jsSplitStr '/' f.name).dropLast,
        protoKeys.contains k = false := by
      intro k hk
      have h1 : jsChainKeys "" (splitName f.name).dropLast =
          chainOfSegs (splitName f.name).dropLast :=
        jsChainKeys_root _ hgooddrop
      have hk2 : k ∈ chainOfSegs (splitName f.name).dropLast := by
        rw [← h1]
        exact hk
      rw [← dirChain_eq_chainOfSegs] at hk2
      exact hproto f (List.mem_cons_self f l2) k hk2
    have hpar : protoKeys.contains (if 1 < (jsSplitStr '/' f.name).length
        then joinSlash (jsSplitStr '/' f.name).dropLast else "") = false := by
      by_cases hlen : 1 < (jsSplitStr '/' f.name).length
      · rw [if_pos hlen]
        have hlen2 : 1 < (splitName f.name).length := hlen
        have hmem : joinSlash (jsSplitStr '/' f.name).dropLast ∈
            dirChain f.name := by
          rw [dirChain_eq_chainOfSegs, mem_chainOfSegs]
          have hL : (splitName f.name).dropLast.length =
              (splitName f.name).length - 1 := List.length_dropLast _
          refine ⟨(splitName f.name).dropLast.length - 1, by omega, ?_⟩
          rw [show (splitName f.name).dropLast.length - 1 + 1 =
            (splitName f.name).dropLast.length by omega, List.take_length]
          rfl
        exact hproto f (List.mem_cons_self f l2) _ hmem
      · rw [if_neg hlen]
        rfl
    have hstep := processFileE_eq m f hroot hkeys hpar
    have hfresh : ∀ g ∈ fs0, g.name ≠ f.name := by
      intro g hg heq
      have h2 : (fs0.map CFile.name ++ (f :: l2).map CFile.name).Nodup := by
        rw [← List.map_append]
        exact hnodup
      rw [List.nodup_append] at h2
      exact h2.2.2 (List.mem_map_of_mem CFile.name hg)
        (by rw [List.map_cons]; exact heq ▸ List.mem_cons_self _ _)
    have hinv2 : MapInv (fs0 ++ [f]) (processFile m f) :=
      processFile_inv fs0 f m
        (fun g hg => hgood g (List.mem_append_left _ hg))
        hgf hfresh hinv
    show (match processFileE m f with
      | Except.ok m2 => foldProcessE m2 l2
      | Except.error e => Except.error e) = Except.ok ((f :: l2).foldl processFile m)
    rw [hstep]
    show foldProcessE (processFile m f) l2 =
      Except.ok (l2.foldl processFile (processFile m f))
    exact ih (fs0 ++ [f]) (processFile m f)
      (by rw [← hassoc]; exact hgood)
      (by rw [← hassoc]; exact hnodup)
      (fun g hg => hproto g (List.mem_cons_of_mem f hg))
      hinv2

theorem buildMapE_eq (files : List CFile)
    (hGood : ∀ f ∈ files, GoodName f.name)
    (hNodup : (files.map CFile.name).Nodup)
    (hProto : ∀ f ∈ files, ∀ p ∈ dirChain f.name,
      protoKeys.contains p = false) :
    buildMapE files = Except.ok (buildMap files) := by
  have hperm : (sortFiles files).Perm files := List.perm_insertionSort _ files
  exact foldProcessE_eq (sortFiles files) [] [("", ⟨"root", []⟩)]
    (by
      intro g hg
      rw [List.nil_append] at hg
      exact hGood g (hperm.mem_iff.mp hg))
    (by
      rw [List.nil_append]
      exact ((hperm.map CFile.name).nodup_iff).mpr hNodup)
    (fun g hg => hProto g (hperm.mem_iff.mp hg))
    mapInv_init

theorem buildFileTreeE_eq (files : List CFile)
    (hGood : ∀ f ∈ files, GoodName f.name)
    (hNodup : (files.map CFile.name).Nodup)
    (hProto : ∀ f ∈ files, ∀ p ∈ dirChain f.name,
      protoKeys.contains p = false) :
    buildFileTreeE files = Except.ok (buildFileTree files) := by
  show (match buildMapE files with
    | Except.ok m => Except.ok (materializeFolder m (m.length + 1) "" "root")
    | Except.error e => Except.error e) = Except.ok (buildFileTree files)
  rw [buildMapE_eq files hGood hNodup hProto]
  rfl

deriving instance DecidableEq for Except

/-- Under the plain-object record semantics, a name whose first segment is
an `Object.prototype` property name makes the first pass skip the folder
creation (the inherited member is truthy) and then crash with a
`TypeError` at `parent.children.push`. -/
theorem buildMapE_proto_crash :
    buildMapE [⟨"toString/a.html", "x", none⟩] = Except.error () := by
  decide

/-- Claim C8 fails on the code as stated: the file list `[/a/b]` has
pairwise-distinct names, and on it the plain-object first pass completes
normally and agrees with the idealized map, yet the built tree does not
give the file a parent chain with one folder node per proper
`'/'`-prefix — the name's leading empty segment makes `parts.join('/')`
(the leaf's computed parent `"/a"`) diverge from the walked folder chain
(`"a"`), so the leaf's enclosing folders do not match the name's
prefixes. -/
theorem buildFileTree_leading_slash_differs :
    (([⟨"/a/b", "x", none⟩] : List CFile).map CFile.name).Nodup ∧
    buildMapE [⟨"/a/b", "x", none⟩] =
      Except.ok (buildMap [⟨"/a/b", "x", none⟩]) ∧
    ¬ buildTreeClaim [⟨"/a/b", "x", none⟩] :=
  ⟨by decide, by decide, by decide⟩

/-- Amended claim C8: for every list of files with pairwise-distinct names
all of whose `'/'`-segments are nonempty and none of whose proper
directory prefixes is an `Object.prototype` property name,
`buildFileTree` (with the plain-object record semantics, `TypeError`
included in the model) returns normally the tree of the idealized pass,
in which every file appears exactly once, as a leaf whose path is the
file's full name, whose displayed name is the last segment, whose content
is the file's content, and whose enclosing-folder chain is the root
followed by one folder per proper `'/'`-prefix of the name; moreover each
such proper prefix yields exactly one folder node in the whole tree. -/
theorem buildFileTree_spec (files : List CFile)
    (hGood : ∀ f ∈ files, GoodName f.name)
    (hNodup : (files.map CFile.name).Nodup)
    (hProto : ∀ f ∈ files, ∀ p ∈ dirChain f.name,
      protoKeys.contains p = false) :
    buildFileTreeE files = Except.ok (buildFileTree files) ∧
    buildTreeClaim files :=
  ⟨buildFileTreeE_eq files hGood hNodup hProto,
   buildTree_good_names files hGood hNodup⟩

/-- Witness for C8 (amended): a two-file project with one nested and one
root-level file satisfies the hypotheses; the plain-object pass returns
normally and the built tree places both files correctly. -/
theorem buildFileTree_spec_witness :
    buildFileTreeE [⟨"dir/a.html", "x", none⟩, ⟨"b.css", "y", none⟩] =
      Except.ok (buildFileTree [⟨"dir/a.html", "x", none⟩, ⟨"b.css", "y", none⟩]) ∧
    buildTreeClaim [⟨"dir/a.html", "x", none⟩, ⟨"b.css", "y", none⟩] :=
  buildFileTree_spec [⟨"dir/a.html", "x", none⟩, ⟨"b.css", "y", none⟩]
    (by decide) (by decide) (by decide)

end HTMLCraft
